import Mathlib

/-!
Verification of the dejank sourcemap restoration engine
(repository thesavant42/dejank), shallow embedding in Lean 4.

Go strings are modelled as lists of bytes (`Str := List Nat`); all
ASCII-level operations of the Go code act byte-wise, which coincides with
Go's rune-level behaviour for the ASCII character classes involved.
Filesystem and network effects are modelled by an explicit environment
(`Env`) of deterministic capabilities plus an explicit write log.
-/

namespace Dejank

/-- Byte strings: the model of Go `string` values. -/
abbrev Str := List Nat

/-- Embed an ASCII Lean string literal as a byte string. -/
def str (s : String) : Str := s.data.map Char.toNat

/-- ASCII whitespace bytes, the ASCII fragment of Go's `unicode.IsSpace`
(tab, newline, vertical tab, form feed, carriage return, space). -/
def isSpace (b : Nat) : Bool := b = 9 ∨ b = 10 ∨ b = 11 ∨ b = 12 ∨ b = 13 ∨ b = 32

/-- Model of `strings.TrimLeft` over whitespace. -/
def trimLeft (s : Str) : Str := s.dropWhile isSpace

/-- Model of `strings.TrimSpace` (ASCII fragment). -/
def trimSpace (s : Str) : Str := ((trimLeft s).reverse.dropWhile isSpace).reverse

/-- Model of Go `strings.TrimPrefix`: drop `p` from the front of `s` when it
is a front fragment of `s`, else return `s` unchanged. -/
def trimPref (p s : Str) : Str := if p.isPrefixOf s then s.drop p.length else s

/-- Accumulator-based splitter: `splitOnAux sep s cur` splits `s` at every
occurrence of the byte `sep`, with `cur` the (reversed) piece read so far. -/
def splitOnAux (sep : Nat) : Str → Str → List Str
  | [], cur => [cur.reverse]
  | c :: rest, cur =>
    if c = sep then cur.reverse :: splitOnAux sep rest []
    else splitOnAux sep rest (c :: cur)

/-- Model of Go `strings.Split` at a single-byte separator. -/
def splitOn (sep : Nat) (s : Str) : List Str := splitOnAux sep s []

/-- Substring test: model of Go `strings.Contains`. -/
def containsSub : Str → Str → Bool
  | hay, needle =>
    needle.isPrefixOf hay ||
      match hay with
      | [] => false
      | _ :: t => containsSub t needle

/-- Scan a string left to right, returning the first position (as the suffix
starting there) where the matcher succeeds: models leftmost regexp search. -/
def scanFirst (f : Str → Option Str) : Str → Option Str
  | [] => f []
  | s@(_ :: rest) => (f s).orElse (fun _ => scanFirst f rest)

/-- Match a literal at the front of the input, returning the remainder. -/
def expectStr (lit s : Str) : Option Str :=
  if lit.isPrefixOf s then some (s.drop lit.length) else none

/-- Match a single expected byte at the front of the input. -/
def expectByte (b : Nat) : Str → Option Str
  | [] => none
  | c :: rest => if c = b then some rest else none

/-! ## Path sanitizer (internal/sourcemap/restore.go) -/

/-- Bytes removed by `illegalCharsRe`, the class `[<>:"|?*\x00-\x1F]`:
all of these characters are single-byte in UTF-8, so rune-level removal
coincides with byte-level removal. -/
def illegalByte (b : Nat) : Bool :=
  b ≤ 31 ∨ b = 60 ∨ b = 62 ∨ b = 58 ∨ b = 34 ∨ b = 124 ∨ b = 63 ∨ b = 42

/-- UTF-8 continuation byte test (`0x80..0xBF`). -/
def utf8Cont (b : Nat) : Bool := 128 ≤ b ∧ b ≤ 191

/-- Model of Go `utf8.ValidString`: the byte string is a sequence of
well-formed, shortest-form, non-surrogate UTF-8 encodings. -/
def validUTF8 : Str → Bool
  | [] => true
  | b :: rest =>
    if b < 128 then validUTF8 rest
    else if 194 ≤ b ∧ b ≤ 223 then
      match rest with
      | c :: r => utf8Cont c && validUTF8 r
      | [] => false
    else if b = 224 then
      match rest with
      | c :: d :: r => (160 ≤ c ∧ c ≤ 191 : Bool) && utf8Cont d && validUTF8 r
      | _ => false
    else if 225 ≤ b ∧ b ≤ 236 then
      match rest with
      | c :: d :: r => utf8Cont c && utf8Cont d && validUTF8 r
      | _ => false
    else if b = 237 then
      match rest with
      | c :: d :: r => (128 ≤ c ∧ c ≤ 159 : Bool) && utf8Cont d && validUTF8 r
      | _ => false
    else if 238 ≤ b ∧ b ≤ 239 then
      match rest with
      | c :: d :: r => utf8Cont c && utf8Cont d && validUTF8 r
      | _ => false
    else if b = 240 then
      match rest with
      | c :: d :: e :: r => (144 ≤ c ∧ c ≤ 191 : Bool) && utf8Cont d && utf8Cont e && validUTF8 r
      | _ => false
    else if 241 ≤ b ∧ b ≤ 243 then
      match rest with
      | c :: d :: e :: r => utf8Cont c && utf8Cont d && utf8Cont e && validUTF8 r
      | _ => false
    else if b = 244 then
      match rest with
      | c :: d :: e :: r => (128 ≤ c ∧ c ≤ 143 : Bool) && utf8Cont d && utf8Cont e && validUTF8 r
      | _ => false
    else false

/-- The cons-case body of `validUTF8`, for symbolic unfolding. -/
def validStep (b : Nat) (rest : Str) : Bool :=
  if b < 128 then validUTF8 rest
  else if 194 ≤ b ∧ b ≤ 223 then
    match rest with
    | c :: r => utf8Cont c && validUTF8 r
    | [] => false
  else if b = 224 then
    match rest with
    | c :: d :: r => (160 ≤ c ∧ c ≤ 191 : Bool) && utf8Cont d && validUTF8 r
    | _ => false
  else if 225 ≤ b ∧ b ≤ 236 then
    match rest with
    | c :: d :: r => utf8Cont c && utf8Cont d && validUTF8 r
    | _ => false
  else if b = 237 then
    match rest with
    | c :: d :: r => (128 ≤ c ∧ c ≤ 159 : Bool) && utf8Cont d && validUTF8 r
    | _ => false
  else if 238 ≤ b ∧ b ≤ 239 then
    match rest with
    | c :: d :: r => utf8Cont c && utf8Cont d && validUTF8 r
    | _ => false
  else if b = 240 then
    match rest with
    | c :: d :: e :: r => (144 ≤ c ∧ c ≤ 191 : Bool) && utf8Cont d && utf8Cont e && validUTF8 r
    | _ => false
  else if 241 ≤ b ∧ b ≤ 243 then
    match rest with
    | c :: d :: e :: r => utf8Cont c && utf8Cont d && utf8Cont e && validUTF8 r
    | _ => false
  else if b = 244 then
    match rest with
    | c :: d :: e :: r => (128 ≤ c ∧ c ≤ 143 : Bool) && utf8Cont d && utf8Cont e && validUTF8 r
    | _ => false
  else false

/-- The loop `for len(clean) > 1 && clean[0] == '.' && clean[1] == '.'`
stripping leading dots while the first two bytes are both dots. -/
def stripLeadDots : Str → Str
  | a :: b :: rest =>
    if a = 46 ∧ b = 46 then stripLeadDots (b :: rest) else a :: b :: rest
  | s => s

/-- Model of `sanitizePathSegment` (restore.go lines 237-257): reject
invalid UTF-8, remove illegal bytes, replace spaces by underscores, trim
trailing dots, strip leading dots while two are present. -/
def sanitizePathSegment (segment : Str) : Str :=
  if ¬ validUTF8 segment then []
  else
    let c1 := segment.filter (fun b => ¬ illegalByte b)
    let c2 := c1.map (fun b => if b = 32 then 95 else b)
    let c3 := (c2.reverse.dropWhile (fun b => b = 46)).reverse
    stripLeadDots c3

/-- The loop `for strings.HasPrefix(path, "./")` removing repeated leading
`./` fragments. -/
def stripDotSlash : Str → Str
  | 46 :: 47 :: rest => stripDotSlash rest
  | s => s

/-- Model of Go `strings.Join` at a single-byte separator. -/
def joinSep (sep : Nat) : List Str → Str
  | [] => []
  | [s] => s
  | s :: rest => s ++ sep :: joinSep sep rest

/-- One element step of Go `path.Clean`: drop empty and `.` elements,
resolve `..` against the pending stack (`acc`, reversed); when `rooted`, a
`..` at the root is dropped, otherwise it is kept. -/
def cleanStep (rooted : Bool) (acc : List Str) (s : Str) : List Str :=
  if s = [] ∨ s = [46] then acc
  else if s = [46, 46] then
    match acc with
    | [] => if rooted then [] else [[46, 46]]
    | t :: acc' => if t = [46, 46] then [46, 46] :: t :: acc' else acc'
  else s :: acc

/-- Segment-level model of Go `path.Clean`'s element processing. -/
def cleanSegs (rooted : Bool) : List Str → List Str → List Str
  | acc, [] => acc.reverse
  | acc, s :: rest => cleanSegs rooted (cleanStep rooted acc s) rest

/-- Model of Go `path.Clean` (= `filepath.Clean` on Unix), defined through
its segment semantics. -/
def pathClean (p : Str) : Str :=
  if p = [] then [46]
  else
    let rooted := p.head? = some 47
    let segs := cleanSegs rooted [] (splitOn 47 p)
    let out := joinSep 47 segs
    if rooted then 47 :: out
    else if out = [] then [46]
    else out

/-- Model of Go `filepath.Join` on Unix: skip to the first nonempty element,
join the remaining elements with `/`, and clean the result. -/
def goJoin (elems : List Str) : Str :=
  match elems.dropWhile (fun e => e = []) with
  | [] => []
  | es => pathClean (joinSep 47 es)

/-- Model of `sanitizePath` (restore.go lines 206-234).  `filepath.FromSlash`
is the identity on Unix and is therefore omitted. -/
def sanitizePath (source : Str) : Str :=
  let path := trimPref (str "webpack://") source
  let path := stripDotSlash path
  let parts := splitOn 47 path
  let sanitized := (parts.map sanitizePathSegment).filter (fun p => p ≠ [])
  if sanitized = [] then [] else goJoin sanitized

/-! ## Restoration engine (internal/sourcemap/restore.go) -/

/-- The space class of Go's regexp `\s`: `[\t\n\f\r ]`. -/
def reSpace (b : Nat) : Bool := b = 9 ∨ b = 10 ∨ b = 12 ∨ b = 13 ∨ b = 32

/-- Model of Go `filepath.Ext`: scan backwards to the last `.` occurring
after the last path separator. -/
def goExtAux : Str → Str → Str
  | [], _ => []
  | c :: r, acc =>
    if c = 47 then []
    else if c = 46 then 46 :: acc
    else goExtAux r (c :: acc)

/-- Model of Go `filepath.Ext`. -/
def goExt (p : Str) : Str := goExtAux p.reverse []

/-- ASCII lowercasing, the byte-level fragment of `strings.ToLower`. -/
def toLowerByte (b : Nat) : Nat := if 65 ≤ b ∧ b ≤ 90 then b + 32 else b

/-- The `mediaExtensions` table of restore.go. -/
def mediaExtensions : List Str :=
  [str ".svg", str ".png", str ".jpg", str ".jpeg", str ".gif",
   str ".webp", str ".ico", str ".bmp",
   str ".woff", str ".woff2", str ".ttf", str ".eot", str ".otf",
   str ".mp3", str ".wav", str ".ogg",
   str ".mp4", str ".webm"]

/-- Model of `isMediaExtension`. -/
def isMediaExtension (path : Str) : Bool :=
  mediaExtensions.contains ((goExt path).map toLowerByte)

/-- The `jsStarters` table of `isJavaScriptContent`. -/
def jsStarters : List Str :=
  [str "import ", str "import" ++ [123], str "import(",
   str "export ", str "export" ++ [123],
   str "module.exports",
   str "var ", str "let ", str "const ",
   str "function ", str "function(",
   str "//", str "/*",
   str "\"use strict\"", [39] ++ str "use strict" ++ [39]]

/-- Model of `isJavaScriptContent`: trimmed content starts with one of the
recognized script markers. -/
def isJavaScriptContent (content : Str) : Bool :=
  let trimmed := trimSpace content
  if trimmed = [] then false
  else jsStarters.any (fun starter => starter.isPrefixOf trimmed)

/-- Greedy `\s+` of Go regexp: at least one space byte, then all of them. -/
def spaces1 : Str → Option Str
  | [] => none
  | c :: rest => if reSpace c then some (rest.dropWhile reSpace) else none

/-- The alternation `(?:export\s+default|module\.exports\s*=)` of
`webpackAssetExportRe`, matched at the current position. -/
def matchStubHead (s : Str) : Option Str :=
  (do
    let s1 ← expectStr (str "export") s
    let s2 ← spaces1 s1
    expectStr (str "default") s2) <|>
  (do
    let s1 ← expectStr (str "module.exports") s
    expectByte 61 (s1.dropWhile reSpace))

/-- The quoted capture `"([^"]+)"` of `webpackAssetExportRe`. -/
def matchQuoted (s : Str) : Option Str := do
  let s1 ← expectByte 34 s
  let cap := s1.takeWhile (fun b => b ≠ 34)
  if cap = [] then none
  else do
    let _ ← expectByte 34 (s1.drop cap.length)
    some cap

/-- `webpackAssetExportRe` matched at the current position (the optional
`__webpack_public_path__\s*\+\s*` group is tried greedily; on failure the
quote must start immediately, as regexp backtracking would conclude). -/
def matchStubAt (s : Str) : Option Str := do
  let s1 ← matchStubHead s
  let s2 ← spaces1 s1
  let s3 := (do
    let t1 ← expectStr (str "__webpack_public_path__") s2
    let t2 ← expectByte 43 (t1.dropWhile reSpace)
    some (t2.dropWhile reSpace)).getD s2
  matchQuoted s3

/-- Model of `extractWebpackAssetURL`: leftmost match of
`webpackAssetExportRe`, first capture group, empty when absent. -/
def extractWebpackAssetURL (content : Str) : Str :=
  (scanFirst matchStubAt content).getD []

/-- The deterministic world: write/mkdir outcomes, the beautifier
(`jsbeautifier.Beautify`: `none` models a formatting error), the asset
fetcher (`AssetFetcher.GetBytes`: `none` models a fetch error), and
`url.Parse` reduced to the scheme/host pair that `resolveAssetURL` uses. -/
structure Env where
  writeOk : Str → Str → Bool
  mkdirOk : Str → Bool
  beautify : Str → Option Str
  fetch : Str → Option Str
  parseURL : Str → Option (Str × Str)

/-- The filesystem write log: successful writes of (path, bytes), in order. -/
abbrev FS := List (Str × Str)

/-- Model of the `SourceMap` struct (internal/sourcemap/types.go). -/
structure SourceMap where
  version : Int := 0
  file : Str := []
  sourceRoot : Str := []
  sources : List Str := []
  sourcesContent : List Str := []
  names : List Str := []
  mappings : Str := []
deriving Repr, DecidableEq

/-- Model of the `RestoreResult` struct; an entry's error is recorded as the
entry's source string (the payload of `fmt.Errorf("failed to restore %s ...")`). -/
structure RestoreResult where
  restoredCount : Nat := 0
  skippedCount : Nat := 0
  assetsFetched : Nat := 0
  errors : List Str := []
deriving Repr, DecidableEq

/-- Model of `RestoreOptions`: `hasFetcher` is `Fetcher != nil`; the actual
fetch behaviour lives in `Env.fetch`. -/
structure RestoreOptions where
  baseURL : Str
  hasFetcher : Bool

/-- Model of Go `filepath.Dir`. -/
def goDir (p : Str) : Str :=
  pathClean ((p.reverse.dropWhile (fun b => b ≠ 47)).reverse)

/-- The JS/TS extension set of format.Format (internal/format). -/
def isJSFile (ext : Str) : Bool :=
  [str ".js", str ".mjs", str ".cjs", str ".jsx",
   str ".ts", str ".mts", str ".cts", str ".tsx"].contains (ext.map toLowerByte)

/-- Model of `format.Format`: beautify JS/TS content, falling back to the
original content on a beautifier error; other files pass through. -/
def Format (env : Env) (content filename : Str) : Str :=
  if ¬ isJSFile (goExt filename) then content
  else
    match env.beautify content with
    | some result => result
    | none => content

/-- Model of `writeFile` (restore.go lines 261-271): create parent
directories, format, write; `true` and an extended log on success. -/
def writeFile (env : Env) (path content : Str) (fs : FS) : Bool × FS :=
  if ¬ env.mkdirOk (goDir path) then (false, fs)
  else
    let formatted := Format env content path
    if env.writeOk path formatted then (true, fs ++ [(path, formatted)])
    else (false, fs)

/-- Model of `resolveAssetURL`: scheme and host of the parsed base URL with
the asset path made root-relative. -/
def resolveAssetURL (env : Env) (baseURL assetPath : Str) : Option Str :=
  match env.parseURL baseURL with
  | none => none
  | some (scheme, host) =>
    some (scheme ++ str "://" ++ host ++ 47 :: trimPref [47] assetPath)

/-- Model of `tryFetchRealAsset` (restore.go lines 155-185). -/
def tryFetchRealAsset (env : Env) (content outPath baseURL : Str) (fs : FS) :
    Bool × FS :=
  let assetPath := extractWebpackAssetURL content
  if assetPath = [] then (false, fs)
  else
    match resolveAssetURL env baseURL assetPath with
    | none => (false, fs)
    | some assetURL =>
      match env.fetch assetURL with
      | none => (false, fs)
      | some data =>
        if ¬ env.mkdirOk (goDir outPath) then (false, fs)
        else if env.writeOk outPath data then (true, fs ++ [(outPath, data)])
        else (false, fs)

/-- The fallback name `source_<i>.js`. -/
def fallbackName (i : Nat) : Str :=
  str "source_" ++ (Nat.repr i).data.map Char.toNat ++ str ".js"

/-- The virtual path used for entry `i`: the sanitized source path, or the
index-derived fallback when that is empty or longer than 255 bytes. -/
def virtualPathOf (i : Nat) (source : Str) : Str :=
  let vp := sanitizePath source
  if vp = [] ∨ 255 < vp.length then fallbackName i else vp

/-- The guard `opts != nil && opts.Fetcher != nil && opts.BaseURL != ""`. -/
def optsHasFetch : Option RestoreOptions → Bool
  | none => false
  | some o => o.hasFetcher && !o.baseURL.isEmpty

/-- The base URL carried by the options (empty when `opts == nil`). -/
def optsBaseURL : Option RestoreOptions → Str
  | none => []
  | some o => o.baseURL

/-- The per-entry body of `RestoreSourcesWithOptions` after the virtual path
has been determined (restore.go lines 125-147). -/
def processEntryAt (env : Env) (outputDir : Str) (opts : Option RestoreOptions)
    (source content virtualPath : Str) (st : RestoreResult × FS) :
    RestoreResult × FS :=
  let result := st.1
  let fs := st.2
  let outPath := goJoin [outputDir, virtualPath]
  if isMediaExtension virtualPath && isJavaScriptContent content then
    if optsHasFetch opts then
      let fr := tryFetchRealAsset env content outPath (optsBaseURL opts) fs
      if fr.1 then
        ({ result with
            assetsFetched := result.assetsFetched + 1,
            restoredCount := result.restoredCount + 1 }, fr.2)
      else ({ result with skippedCount := result.skippedCount + 1 }, fr.2)
    else ({ result with skippedCount := result.skippedCount + 1 }, fs)
  else
    let wr := writeFile env outPath content fs
    if wr.1 then ({ result with restoredCount := result.restoredCount + 1 }, wr.2)
    else ({ result with errors := result.errors ++ [source] }, wr.2)

/-- The full per-entry body of the restoration loop (restore.go lines
114-147): skip empty content, compute the virtual path with fallback,
classify and write. -/
def processEntry (env : Env) (outputDir : Str) (opts : Option RestoreOptions)
    (i : Nat) (source content : Str) (st : RestoreResult × FS) :
    RestoreResult × FS :=
  if content = [] then
    ({ st.1 with skippedCount := st.1.skippedCount + 1 }, st.2)
  else processEntryAt env outputDir opts source content (virtualPathOf i source) st

/-- The `for i, source := range sm.Sources` loop of
`RestoreSourcesWithOptions`, with its `i >= len(sm.SourcesContent)` break. -/
def restoreLoop (env : Env) (outputDir : Str) (opts : Option RestoreOptions) :
    List Str → List Str → Nat → RestoreResult × FS → RestoreResult × FS
  | [], _, _, st => st
  | source :: rest, contents, i, st =>
    if contents.length ≤ i then st
    else restoreLoop env outputDir opts rest contents (i + 1)
      (processEntry env outputDir opts i source (contents.getD i []) st)

/-- Model of `RestoreSourcesWithOptions` (restore.go lines 102-151). -/
def RestoreSourcesWithOptions (env : Env) (sm : SourceMap) (outputDir : Str)
    (opts : Option RestoreOptions) (fs : FS) : RestoreResult × FS :=
  if sm.sourcesContent.length = 0 then ({}, fs)
  else restoreLoop env outputDir opts sm.sources sm.sourcesContent 0 ({}, fs)

/-- Model of `RestoreSources`. -/
def RestoreSources (env : Env) (sm : SourceMap) (outputDir : Str) (fs : FS) :
    RestoreResult × FS :=
  RestoreSourcesWithOptions env sm outputDir none fs

/-! ## Base64 asset extraction: MIME mapping (internal/assets) -/

/-- The `mimeToExt` table. -/
def mimeToExt : List (Str × Str) :=
  [(str "image/png", str "png"),
   (str "image/jpeg", str "jpg"),
   (str "image/gif", str "gif"),
   (str "image/svg+xml", str "svg"),
   (str "image/webp", str "webp"),
   (str "font/woff", str "woff"),
   (str "font/woff2", str "woff2"),
   (str "font/ttf", str "ttf"),
   (str "font/otf", str "otf"),
   (str "application/vnd.ms-fontobject", str "eot"),
   (str "application/font-sfnt", str "sfnt"),
   (str "application/font-woff", str "woff"),
   (str "application/font-woff2", str "woff2"),
   (str "application/octet-stream", str "bin")]

/-- Index of the first occurrence of a byte (`strings.Index` for a
single-byte needle). -/
def byteIndex (b : Nat) (s : Str) : Option Nat := s.findIdx? (fun c => c == b)

/-- Model of `extensionFromMIME` (internal/assets): table lookup, then the
subtype truncated at `+`, then the generic binary extension. -/
def extensionFromMIME (mime : Str) : Str :=
  match (mimeToExt.find? (fun p => p.1 == mime)).map (fun p => p.2) with
  | some ext => ext
  | none =>
    let parts := splitOn 47 mime
    if parts.length = 2 then
      let subtype := parts.getD 1 []
      match byteIndex 43 subtype with
      | some idx => subtype.take idx
      | none => subtype
    else str "bin"

/-! ## Sourcemap reference extraction (internal/sourcemap/types.go) -/

/-- `sourceMappingURLRe` = `//[#@]\s*sourceMappingURL\s*=\s*([^\s]+)`,
matched at the current position; returns the capture group. -/
def matchMapURLAt (s : Str) : Option Str := do
  let s1 ← expectStr (str "//") s
  match s1 with
  | [] => none
  | c :: s2 =>
    if c = 35 ∨ c = 64 then do
      let s3 := s2.dropWhile reSpace
      let s4 ← expectStr (str "sourceMappingURL") s3
      let s5 := s4.dropWhile reSpace
      let s6 ← expectByte 61 s5
      let s7 := s6.dropWhile reSpace
      let cap := s7.takeWhile (fun b => ¬ reSpace b)
      if cap = [] then none else some cap
    else none

/-- Leftmost match of `sourceMappingURLRe` in a line
(`FindStringSubmatch`, capture 1). -/
def findMappingURL (line : Str) : Option Str := scanFirst matchMapURLAt line

/-- The scanning loop of `ExtractSourceMappingURL`, iterating lines from the
end of the window: first match wins; a `data:` URL yields the empty string. -/
def scanMapRev : List Str → Str
  | [] => []
  | line :: rest =>
    match findMappingURL line with
    | some m =>
      let url := trimSpace m
      if (str "data:").isPrefixOf url then [] else url
    | none => scanMapRev rest

/-- The window `lines[max 0 (len-10) ..]` that both extraction functions
inspect. -/
def lastLines (n : Nat) (lines : List Str) : List Str :=
  lines.drop (lines.length - n)

/-- Model of `ExtractSourceMappingURL` (types.go lines 112-136). -/
def ExtractSourceMappingURL (jsContent : Str) : Str :=
  let lines := splitOn 10 (trimSpace jsContent)
  scanMapRev (lastLines 10 lines).reverse

/-- The substring probed by `HasInlineSourceMap` and the `Contains` guard of
`ExtractInlineSourceMap`. -/
def inlineMarker : Str := str "sourceMappingURL=data:application/json"

/-- The base64 character class `[a-zA-Z0-9+/=]` of `inlineSourceMapRe`. -/
def b64Class (b : Nat) : Bool :=
  (97 ≤ b ∧ b ≤ 122) ∨ (65 ≤ b ∧ b ≤ 90) ∨ (48 ≤ b ∧ b ≤ 57) ∨
    b = 43 ∨ b = 47 ∨ b = 61

/-- The fragment `[^,]*;base64,` of `inlineSourceMapRe`: greedily consume
non-comma bytes, preferring the longest consumption that still lets the
literal `;base64,` match (regexp backtracking order); returns the remainder
after the literal. -/
def starB64 : Str → Option Str
  | [] => none
  | c :: rest =>
    (if c ≠ 44 then starB64 rest else none).orElse
      (fun _ =>
        if (str ";base64,").isPrefixOf (c :: rest)
        then some ((c :: rest).drop 8) else none)

/-- `inlineSourceMapRe` =
`sourceMappingURL\s*=\s*data:application/json[^,]*;base64,([a-zA-Z0-9+/=]+)`,
matched at the current position; returns the capture group. -/
def matchInlineAt (s : Str) : Option Str := do
  let s1 ← expectStr (str "sourceMappingURL") s
  let s2 := s1.dropWhile reSpace
  let s3 ← expectByte 61 s2
  let s4 := s3.dropWhile reSpace
  let s5 ← expectStr (str "data:application/json") s4
  let s6 ← starB64 s5
  let cap := s6.takeWhile b64Class
  if cap = [] then none else some cap

/-- Leftmost match of `inlineSourceMapRe` in a line (capture 1). -/
def findInlineB64 (line : Str) : Option Str := scanFirst matchInlineAt line

/-! ## Base64 (Go `encoding/base64` StdEncoding) -/

/-- The standard base64 alphabet. -/
def b64chr (n : Nat) : Nat :=
  if n < 26 then 65 + n
  else if n < 52 then 97 + (n - 26)
  else if n < 62 then 48 + (n - 52)
  else if n = 62 then 43
  else 47

/-- Inverse of the alphabet (`none` on a non-alphabet byte). -/
def b64val (b : Nat) : Option Nat :=
  if 65 ≤ b ∧ b ≤ 90 then some (b - 65)
  else if 97 ≤ b ∧ b ≤ 122 then some (b - 97 + 26)
  else if 48 ≤ b ∧ b ≤ 57 then some (b - 48 + 52)
  else if b = 43 then some 62
  else if b = 47 then some 63
  else none

/-- `base64.StdEncoding.EncodeToString`. -/
def b64encode : Str → Str
  | b1 :: b2 :: b3 :: rest =>
    b64chr (b1 / 4) :: b64chr ((b1 % 4) * 16 + b2 / 16) ::
      b64chr ((b2 % 16) * 4 + b3 / 64) :: b64chr (b3 % 64) :: b64encode rest
  | [b1, b2] =>
    [b64chr (b1 / 4), b64chr ((b1 % 4) * 16 + b2 / 16), b64chr ((b2 % 16) * 4), 61]
  | [b1] => [b64chr (b1 / 4), b64chr ((b1 % 4) * 16), 61, 61]
  | [] => []

/-- Decoding of padded four-byte base64 groups, `none` on malformed input.
Padding may close only the final group, and nonzero trailing padding bits
are accepted, as the default (non-strict) decoder leaves them unchecked. -/
def b64decodeGroups : Str → Option Str
  | [] => some []
  | c1 :: c2 :: c3 :: c4 :: rest => do
    let v1 ← b64val c1
    let v2 ← b64val c2
    if c3 = 61 then
      if c4 = 61 ∧ rest = [] then some [v1 * 4 + v2 / 16] else none
    else do
      let v3 ← b64val c3
      if c4 = 61 then
        if rest = [] then
          some [v1 * 4 + v2 / 16, (v2 % 16) * 16 + v3 / 4]
        else none
      else do
        let v4 ← b64val c4
        let tail ← b64decodeGroups rest
        some ((v1 * 4 + v2 / 16) :: ((v2 % 16) * 16 + v3 / 4) :: ((v3 % 4) * 64 + v4) :: tail)
  | _ => none

/-- `base64.StdEncoding.DecodeString`: carriage-return and newline bytes
are ignored wherever they appear, and the remaining bytes are decoded as
padded four-byte groups. -/
def b64decode (s : Str) : Option Str :=
  b64decodeGroups (s.filter (fun b => ¬ (b = 13 ∨ b = 10)))

/-! ## JSON parsing (model of `encoding/json` unmarshalling into `SourceMap`)

The parser covers the JSON fragment that decoding a sourcemap into the
`SourceMap` struct exercises: an object of string keys whose values are
strings, integers, booleans, `null`, or arrays of strings. -/

/-- JSON values of the fragment. -/
inductive JVal where
  | jstr : Str → JVal
  | jnum : Int → JVal
  | jbool : Bool → JVal
  | jnull : JVal
  | jarr : List Str → JVal
deriving Repr, DecidableEq

/-- JSON insignificant whitespace. -/
def jsonWs (b : Nat) : Bool := b = 32 ∨ b = 9 ∨ b = 10 ∨ b = 13

/-- Skip insignificant whitespace. -/
def skipWs (s : Str) : Str := s.dropWhile jsonWs

/-- Hexadecimal digit value. -/
def hexVal (b : Nat) : Option Nat :=
  if 48 ≤ b ∧ b ≤ 57 then some (b - 48)
  else if 97 ≤ b ∧ b ≤ 102 then some (b - 97 + 10)
  else if 65 ≤ b ∧ b ≤ 70 then some (b - 65 + 10)
  else none

/-- Model of `utf8.EncodeRune`: the UTF-8 encoding of a rune; surrogate
values and values beyond the Unicode range encode the replacement
character `U+FFFD`. -/
def utf8Enc (n : Nat) : Str :=
  if n < 128 then [n]
  else if n < 2048 then [192 + n / 64, 128 + n % 64]
  else if 55296 ≤ n ∧ n ≤ 57343 then [239, 191, 189]
  else if n < 65536 then [224 + n / 4096, 128 + (n / 64) % 64, 128 + n % 64]
  else if n < 1114112 then
    [240 + n / 262144, 128 + (n / 4096) % 64, 128 + (n / 64) % 64, 128 + n % 64]
  else [239, 191, 189]

/-- The single-character escapes of JSON strings. -/
def escMap (e : Nat) : Option Nat :=
  if e = 34 then some 34
  else if e = 92 then some 92
  else if e = 47 then some 47
  else if e = 98 then some 8
  else if e = 102 then some 12
  else if e = 110 then some 10
  else if e = 114 then some 13
  else if e = 116 then some 9
  else none

/-- The `acceptRanges` check of `utf8.DecodeRune` for a non-ASCII leading
byte: `some n` gives the number of continuation bytes of a valid encoding
starting at `b`, `none` marks an invalid encoding (decoded as `RuneError`
of size one). -/
def utf8CopyLen (b : Nat) (rest : Str) : Option Nat :=
  if 194 ≤ b ∧ b ≤ 223 then
    match rest with
    | c :: _ => if utf8Cont c then some 1 else none
    | [] => none
  else if b = 224 then
    match rest with
    | c :: d :: _ => if (160 ≤ c ∧ c ≤ 191 : Bool) && utf8Cont d then some 2 else none
    | _ => none
  else if 225 ≤ b ∧ b ≤ 236 then
    match rest with
    | c :: d :: _ => if utf8Cont c && utf8Cont d then some 2 else none
    | _ => none
  else if b = 237 then
    match rest with
    | c :: d :: _ => if (128 ≤ c ∧ c ≤ 159 : Bool) && utf8Cont d then some 2 else none
    | _ => none
  else if 238 ≤ b ∧ b ≤ 239 then
    match rest with
    | c :: d :: _ => if utf8Cont c && utf8Cont d then some 2 else none
    | _ => none
  else if b = 240 then
    match rest with
    | c :: d :: e :: _ =>
      if (144 ≤ c ∧ c ≤ 191 : Bool) && utf8Cont d && utf8Cont e then some 3 else none
    | _ => none
  else if 241 ≤ b ∧ b ≤ 243 then
    match rest with
    | c :: d :: e :: _ =>
      if utf8Cont c && utf8Cont d && utf8Cont e then some 3 else none
    | _ => none
  else if b = 244 then
    match rest with
    | c :: d :: e :: _ =>
      if (128 ≤ c ∧ c ≤ 143 : Bool) && utf8Cont d && utf8Cont e then some 3 else none
    | _ => none
  else none

/-- Surrogate pairing of `encoding/json` unquoting: after a high-surrogate
`\uXXXX` escape with value `rr`, a following `\uXXXX` escape completing a
valid pair yields the combined rune (six bytes are then consumed). -/
def surrPair (rr : Nat) : Str → Option Nat
  | 92 :: 117 :: g1 :: g2 :: g3 :: g4 :: _ => do
    let w1 ← hexVal g1
    let w2 ← hexVal g2
    let w3 ← hexVal g3
    let w4 ← hexVal g4
    let rr1 := ((w1 * 16 + w2) * 16 + w3) * 16 + w4
    if rr ≤ 56319 ∧ 56320 ≤ rr1 ∧ rr1 ≤ 57343 then
      some (65536 + (rr - 55296) * 1024 + (rr1 - 56320))
    else none
  | _ => none

/-- Parse a JSON string body after the opening quote, returning the decoded
bytes and the remainder after the closing quote, as `encoding/json`
unquoting does.  Raw control bytes are rejected (the scanner rejects them).
A `\uXXXX` escape naming a surrogate is paired with a following low
surrogate escape when possible, and otherwise decodes to the replacement
character.  Raw bytes at or above `0x80` are decoded rune by rune with the
ranges of `utf8.DecodeRune`: a valid encoding is copied through, an invalid
one yields the replacement character and consumes a single byte. -/
def parseJStrBody : Str → Option (Str × Str)
  | [] => none
  | b :: rest =>
    if b = 34 then some ([], rest)
    else if b = 92 then
      match rest with
      | [] => none
      | e :: rest2 =>
        if e = 117 then
          match rest2 with
          | h1 :: h2 :: h3 :: h4 :: rest3 => do
            let v1 ← hexVal h1
            let v2 ← hexVal h2
            let v3 ← hexVal h3
            let v4 ← hexVal h4
            let rr := ((v1 * 16 + v2) * 16 + v3) * 16 + v4
            if 55296 ≤ rr ∧ rr ≤ 57343 then
              match surrPair rr rest3 with
              | some dec => do
                let tr ← parseJStrBody (rest3.drop 6)
                some (utf8Enc dec ++ tr.1, tr.2)
              | none => do
                let tr ← parseJStrBody rest3
                some (utf8Enc 65533 ++ tr.1, tr.2)
            else do
              let tr ← parseJStrBody rest3
              some (utf8Enc rr ++ tr.1, tr.2)
          | _ => none
        else do
          let esc ← escMap e
          let tr ← parseJStrBody rest2
          some (esc :: tr.1, tr.2)
    else if b < 32 then none
    else if b < 128 then do
      let tr ← parseJStrBody rest
      some (b :: tr.1, tr.2)
    else
      match utf8CopyLen b rest with
      | some n => do
        let tr ← parseJStrBody (rest.drop n)
        some (b :: (rest.take n ++ tr.1), tr.2)
      | none => do
        let tr ← parseJStrBody rest
        some (utf8Enc 65533 ++ tr.1, tr.2)
termination_by s => s.length
decreasing_by
  all_goals simp only [List.length_cons, List.length_drop]
  all_goals omega

/-- Decimal digit test. -/
def isDigit (b : Nat) : Bool := 48 ≤ b ∧ b ≤ 57

/-- Digit run to a natural number. -/
def digitsToNat (ds : Str) : Nat := ds.foldl (fun acc b => acc * 10 + (b - 48)) 0

/-- Parse a JSON integer (the numeric fragment the sourcemap fields use). -/
def parseJNum (s : Str) : Option (Int × Str) :=
  match s with
  | 45 :: rest =>
    let ds := rest.takeWhile isDigit
    if ds = [] then none
    else some (-(digitsToNat ds : Int), rest.drop ds.length)
  | _ =>
    let ds := s.takeWhile isDigit
    if ds = [] then none
    else some ((digitsToNat ds : Int), s.drop ds.length)

/-- Parse the elements of a nonempty array of strings, after the opening
bracket; fuel bounds the number of elements. -/
def parseStrElems : Nat → Str → Option (List Str × Str)
  | 0, _ => none
  | fuel + 1, s =>
    match skipWs s with
    | [] => none
    | c :: rest =>
      if c = 34 then do
        let er ← parseJStrBody rest
        match skipWs er.2 with
        | [] => none
        | d :: r2 =>
          if d = 44 then do
            let esr ← parseStrElems fuel r2
            some (er.1 :: esr.1, esr.2)
          else if d = 93 then some ([er.1], r2)
          else none
      else none

/-- Parse a scalar-or-string-array JSON value. -/
def parseScalar (s : Str) : Option (JVal × Str) :=
  match s with
  | [] => none
  | c :: rest =>
    if c = 34 then (parseJStrBody rest).map (fun p => (JVal.jstr p.1, p.2))
    else if c = 91 then
      match skipWs rest with
      | 93 :: r => some (JVal.jarr [], r)
      | _ => (parseStrElems rest.length.succ rest).map (fun p => (JVal.jarr p.1, p.2))
    else if c = 116 then (expectStr (str "rue") rest).map (fun r => (JVal.jbool true, r))
    else if c = 102 then (expectStr (str "alse") rest).map (fun r => (JVal.jbool false, r))
    else if c = 110 then (expectStr (str "ull") rest).map (fun r => (JVal.jnull, r))
    else (parseJNum s).map (fun p => (JVal.jnum p.1, p.2))

/-- Parse the fields of a nonempty JSON object, after the opening brace;
fuel bounds the number of fields. -/
def parseFields : Nat → Str → Option (List (Str × JVal) × Str)
  | 0, _ => none
  | fuel + 1, s =>
    match skipWs s with
    | [] => none
    | c :: rest =>
      if c = 34 then do
        let kr ← parseJStrBody rest
        match skipWs kr.2 with
        | 58 :: r2 => do
          let vr ← parseScalar (skipWs r2)
          match skipWs vr.2 with
          | 44 :: r4 => do
            let fr ← parseFields fuel r4
            some ((kr.1, vr.1) :: fr.1, fr.2)
          | 125 :: r4 => some ([(kr.1, vr.1)], r4)
          | _ => none
        | _ => none
      else none

/-- Parse a whole JSON document as an object, requiring the input to be
fully consumed (as `json.Unmarshal` requires). -/
def parseTopObject (s : Str) : Option (List (Str × JVal)) :=
  match skipWs s with
  | 123 :: rest =>
    (match skipWs rest with
     | 125 :: r => if skipWs r = [] then some [] else none
     | _ =>
       match parseFields rest.length.succ rest with
       | some fr => if skipWs fr.2 = [] then some fr.1 else none
       | none => none)
  | _ => none

/-- Look up an object field by key. -/
def jField (kvs : List (Str × JVal)) (k : Str) : Option JVal :=
  (kvs.find? (fun p => p.1 == k)).map (fun p => p.2)

/-- A string-typed struct field: absent means the zero value, a value of the
wrong type is an unmarshalling error. -/
def jFieldStr (kvs : List (Str × JVal)) (k : Str) : Option Str :=
  match jField kvs k with
  | none => some []
  | some (JVal.jstr s) => some s
  | some _ => none

/-- A `[]string`-typed struct field. -/
def jFieldStrArr (kvs : List (Str × JVal)) (k : Str) : Option (List Str) :=
  match jField kvs k with
  | none => some []
  | some (JVal.jarr ss) => some ss
  | some _ => none

/-- An `int`-typed struct field. -/
def jFieldInt (kvs : List (Str × JVal)) (k : Str) : Option Int :=
  match jField kvs k with
  | none => some 0
  | some (JVal.jnum n) => some n
  | some _ => none

/-- Model of `Parse` (types.go lines 101-108): unmarshal sourcemap JSON
into the `SourceMap` struct, `none` on a malformed document. -/
def Parse (data : Str) : Option SourceMap := do
  let kvs ← parseTopObject data
  let version ← jFieldInt kvs (str "version")
  let file ← jFieldStr kvs (str "file")
  let sourceRoot ← jFieldStr kvs (str "sourceRoot")
  let sources ← jFieldStrArr kvs (str "sources")
  let sourcesContent ← jFieldStrArr kvs (str "sourcesContent")
  let names ← jFieldStrArr kvs (str "names")
  let mappings ← jFieldStr kvs (str "mappings")
  some { version := version, file := file, sourceRoot := sourceRoot,
         sources := sources, sourcesContent := sourcesContent,
         names := names, mappings := mappings }

/-- The scanning loop of `ExtractInlineSourceMap`, iterating lines from the
end of the window: a line containing the marker is tried against
`inlineSourceMapRe`; on a match, the payload is decoded and parsed
(`Except.error` models the error returns of the Go function). -/
def scanInlineRev : List Str → Except Unit (Option SourceMap)
  | [] => .ok none
  | line :: rest =>
    if containsSub line inlineMarker then
      match findInlineB64 line with
      | some payload =>
        match b64decode payload with
        | none => .error ()
        | some decoded =>
          match Parse decoded with
          | none => .error ()
          | some sm => .ok (some sm)
      | none => scanInlineRev rest
    else scanInlineRev rest

/-- Model of `ExtractInlineSourceMap` (types.go lines 140-167). -/
def ExtractInlineSourceMap (jsContent : Str) : Except Unit (Option SourceMap) :=
  let lines := splitOn 10 (trimSpace jsContent)
  scanInlineRev (lastLines 10 lines).reverse

/-- Model of `HasInlineSourceMap` (types.go lines 170-172): a substring
probe over the whole content. -/
def HasInlineSourceMap (jsContent : Str) : Bool :=
  containsSub jsContent inlineMarker

/-! ## Specification-side JSON encoder (for the round-trip claim C8) -/

/-- Lowercase hexadecimal digit. -/
def hexDigit (n : Nat) : Nat := if n < 10 then 48 + n else 97 + (n - 10)

/-- Escape one byte of a JSON string. -/
def jsonEscapeByte (b : Nat) : Str :=
  if b = 34 then [92, 34]
  else if b = 92 then [92, 92]
  else if b = 10 then [92, 110]
  else if b = 13 then [92, 114]
  else if b = 9 then [92, 116]
  else if b < 32 then [92, 117, 48, 48, hexDigit (b / 16), hexDigit (b % 16)]
  else [b]

/-- A JSON string literal. -/
def jsonStr (s : Str) : Str := 34 :: (s.map jsonEscapeByte).flatten ++ [34]

/-- A JSON array of string literals. -/
def jsonStrArr (ss : List Str) : Str := 91 :: joinSep 44 (ss.map jsonStr) ++ [93]

/-- The canonical JSON document
`{"version":3,"sources":[...],"sourcesContent":[...]}` encoding a
sourcemap's sources and contents. -/
def encodeSourceMapJson (sources sourcesContent : List Str) : Str :=
  123 :: jsonStr (str "version") ++ 58 :: 51 ::
    44 :: jsonStr (str "sources") ++ 58 :: jsonStrArr sources ++
    44 :: jsonStr (str "sourcesContent") ++ 58 :: jsonStrArr sourcesContent ++ [125]

/-- The trimmed-and-split tail window of at most ten lines that the
extraction functions inspect. -/
def mapWindow (jsContent : Str) : List Str :=
  lastLines 10 (splitOn 10 (trimSpace jsContent))

/-- Specification-side restoration: fold the per-entry body over the
index-enumerated zip of sources and contents, in declared order. -/
def restorePairs (env : Env) (outputDir : Str) (opts : Option RestoreOptions)
    (entries : List (Nat × (Str × Str))) (st : RestoreResult × FS) :
    RestoreResult × FS :=
  entries.foldl (fun acc e => processEntry env outputDir opts e.1 e.2.1 e.2.2 acc) st

/-- Componentwise combination of two restore results. -/
def addRR (a b : RestoreResult) : RestoreResult :=
  { restoredCount := a.restoredCount + b.restoredCount,
    skippedCount := a.skippedCount + b.skippedCount,
    assetsFetched := a.assetsFetched + b.assetsFetched,
    errors := a.errors ++ b.errors }

/-- An environment in which directory creation and writes always succeed,
the beautifier always reports an error (so formatting falls back to the
original content), and no network is available. -/
def alwaysOkEnv : Env :=
  { writeOk := fun _ _ => true, mkdirOk := fun _ => true,
    beautify := fun _ => none, fetch := fun _ => none,
    parseURL := fun _ => none }

/-- An environment in which every file write fails. -/
def failWriteEnv : Env :=
  { writeOk := fun _ _ => false, mkdirOk := fun _ => true,
    beautify := fun _ => none, fetch := fun _ => none,
    parseURL := fun _ => none }

/-! ## Sanitizer safety lemmas (claim C2) -/

theorem mem_splitOnAux_no_sep (sep : Nat) :
    ∀ (s cur : Str), sep ∉ cur → ∀ seg ∈ splitOnAux sep s cur, sep ∉ seg := by
  intro s
  induction s with
  | nil =>
    intro cur hc seg hm
    simp only [splitOnAux, List.mem_singleton] at hm
    subst hm
    simpa using hc
  | cons c rest ih =>
    intro cur hc seg hm
    by_cases h : c = sep
    · rw [splitOnAux, if_pos h] at hm
      rcases List.mem_cons.1 hm with h1 | h1
      · subst h1; simpa using hc
      · exact ih [] (by simp) seg h1
    · rw [splitOnAux, if_neg h] at hm
      refine ih (c :: cur) ?_ seg hm
      intro hx
      rcases List.mem_cons.1 hx with h1 | h1
      · exact h h1.symm
      · exact hc h1

theorem mem_splitOn_no_sep (sep : Nat) (s : Str) :
    ∀ seg ∈ splitOn sep s, sep ∉ seg :=
  mem_splitOnAux_no_sep sep s [] (by simp)

theorem stripLeadDots_subset : ∀ s : Str, ∀ x ∈ stripLeadDots s, x ∈ s
  | [] => by simp [stripLeadDots]
  | [a] => by simp [stripLeadDots]
  | a :: b :: rest => by
    intro x hx
    by_cases h : a = 46 ∧ b = 46
    · rw [stripLeadDots, if_pos h] at hx
      exact List.mem_cons_of_mem a (stripLeadDots_subset (b :: rest) x hx)
    · rwa [stripLeadDots, if_neg h] at hx

theorem stripLeadDots_ne_nil : ∀ s : Str, s ≠ [] → stripLeadDots s ≠ []
  | [] => by simp
  | [a] => by simp [stripLeadDots]
  | a :: b :: rest => by
    intro _
    by_cases h : a = 46 ∧ b = 46
    · rw [stripLeadDots, if_pos h]
      exact stripLeadDots_ne_nil (b :: rest) (by simp)
    · rw [stripLeadDots, if_neg h]
      simp

theorem stripLeadDots_getLast? : ∀ s : Str, (stripLeadDots s).getLast? = s.getLast?
  | [] => rfl
  | [a] => by simp [stripLeadDots]
  | a :: b :: rest => by
    by_cases h : a = 46 ∧ b = 46
    · rw [stripLeadDots, if_pos h, stripLeadDots_getLast? (b :: rest),
        List.getLast?_cons_cons]
    · rw [stripLeadDots, if_neg h]

theorem head?_dropWhile_false (p : Nat → Bool) :
    ∀ l : Str, ∀ a, (l.dropWhile p).head? = some a → p a = false := by
  intro l
  induction l with
  | nil => intro a h; simp [List.dropWhile] at h
  | cons c rest ih =>
    intro a h
    by_cases hc : p c
    · rw [List.dropWhile_cons_of_pos hc] at h
      exact ih a h
    · rw [List.dropWhile_cons_of_neg hc] at h
      simp only [List.head?_cons, Option.some.injEq] at h
      subst h
      simpa using hc

theorem sanitizePathSegment_getLast_ne_dot (seg : Str) :
    (sanitizePathSegment seg).getLast? ≠ some 46 := by
  unfold sanitizePathSegment
  by_cases hv : ¬ validUTF8 seg
  · simp [hv]
  · rw [if_neg hv]
    intro hcontra
    rw [stripLeadDots_getLast?, List.getLast?_reverse] at hcontra
    have := head?_dropWhile_false (fun b => b = 46) _ 46 hcontra
    simp at this

theorem sanitizePathSegment_no_slash (seg : Str) (h : 47 ∉ seg) :
    47 ∉ sanitizePathSegment seg := by
  unfold sanitizePathSegment
  by_cases hv : ¬ validUTF8 seg
  · simp [hv]
  · rw [if_neg hv]
    intro hcontra
    have h1 := stripLeadDots_subset _ 47 hcontra
    rw [List.mem_reverse] at h1
    have h2 := (List.dropWhile_sublist (fun b => b = 46)).mem h1
    rw [List.mem_reverse] at h2
    rcases List.mem_map.1 h2 with ⟨b, hb, hbe⟩
    have hbseg : b ∈ seg := (List.mem_filter.1 hb).1
    by_cases h32 : b = 32
    · rw [h32] at hbe; simp at hbe
    · rw [if_neg h32] at hbe; exact h (hbe ▸ hbseg)

theorem splitOnAux_append_no_sep (sep : Nat) :
    ∀ (seg t cur : Str), sep ∉ seg →
      splitOnAux sep (seg ++ t) cur = splitOnAux sep t (seg.reverse ++ cur) := by
  intro seg
  induction seg with
  | nil => intro t cur _; simp
  | cons c seg' ih =>
    intro t cur h
    have hc : ¬ c = sep := fun he => h (by simp [he])
    rw [List.cons_append, splitOnAux, if_neg hc,
      ih t (c :: cur) (fun hm => h (List.mem_cons_of_mem c hm))]
    simp

theorem splitOn_joinSep (sep : Nat) :
    ∀ segs : List Str, segs ≠ [] → (∀ s ∈ segs, sep ∉ s) →
      splitOn sep (joinSep sep segs) = segs
  | [] => by simp
  | [s] => by
    intro _ hs
    show splitOnAux sep (joinSep sep [s]) [] = [s]
    rw [joinSep]
    have : (s : Str) = s ++ [] := by simp
    rw [this, splitOnAux_append_no_sep sep s [] [] (hs s (by simp))]
    simp [splitOnAux]
  | s :: s' :: rest => by
    intro _ hs
    show splitOnAux sep (s ++ sep :: joinSep sep (s' :: rest)) [] = s :: s' :: rest
    rw [splitOnAux_append_no_sep sep s _ [] (hs s (by simp))]
    rw [splitOnAux, if_pos rfl]
    simp only [List.append_nil, List.reverse_reverse]
    show s :: splitOn sep (joinSep sep (s' :: rest)) = s :: s' :: rest
    rw [splitOn_joinSep sep (s' :: rest) (by simp)
      (fun x hx => hs x (List.mem_cons_of_mem s hx))]

theorem joinSep_ne_nil (sep : Nat) (s : Str) (rest : List Str) (h : s ≠ []) :
    joinSep sep (s :: rest) ≠ [] := by
  cases rest with
  | nil => simpa [joinSep]
  | cons s' r =>
    show s ++ sep :: joinSep sep (s' :: r) ≠ []
    simp

theorem joinSep_head? (sep : Nat) (s : Str) (rest : List Str) (h : s ≠ []) :
    (joinSep sep (s :: rest)).head? = s.head? := by
  cases rest with
  | nil => rfl
  | cons s' r =>
    show (s ++ sep :: joinSep sep (s' :: r)).head? = s.head?
    cases s with
    | nil => exact absurd rfl h
    | cons c cs => simp

theorem cleanSegs_good (rooted : Bool) :
    ∀ (segs : List Str) (acc : List Str),
      (∀ s ∈ segs, s ≠ [] ∧ s ≠ [46] ∧ s ≠ [46, 46]) →
      cleanSegs rooted acc segs = acc.reverse ++ segs := by
  intro segs
  induction segs with
  | nil => intro acc _; simp [cleanSegs]
  | cons s rest ih =>
    intro acc hgood
    obtain ⟨h1, h2, h3⟩ := hgood s (by simp)
    have hstep : cleanStep rooted acc s = s :: acc := by
      unfold cleanStep
      rw [if_neg (by tauto), if_neg h3]
    rw [cleanSegs, hstep,
      ih (s :: acc) (fun x hx => hgood x (List.mem_cons_of_mem s hx))]
    simp

theorem pathClean_of_good (segs : List Str)
    (hne : segs ≠ [])
    (hgood : ∀ s ∈ segs, s ≠ [] ∧ s ≠ [46] ∧ s ≠ [46, 46] ∧ 47 ∉ s) :
    pathClean (joinSep 47 segs) = joinSep 47 segs := by
  obtain ⟨s, rest, rfl⟩ := List.exists_cons_of_ne_nil hne
  obtain ⟨hs1, -, -, hs4⟩ := hgood s (by simp)
  have hp : joinSep 47 (s :: rest) ≠ [] := joinSep_ne_nil 47 s rest hs1
  unfold pathClean
  rw [if_neg hp]
  have hrooted : ¬ ((joinSep 47 (s :: rest)).head? = some 47) := by
    rw [joinSep_head? 47 s rest hs1]
    obtain ⟨c, cs, rfl⟩ := List.exists_cons_of_ne_nil hs1
    have : c ≠ 47 := fun he => hs4 (by simp [he])
    simp [this]
  rw [if_neg hrooted]
  have hsplit : splitOn 47 (joinSep 47 (s :: rest)) = s :: rest :=
    splitOn_joinSep 47 (s :: rest) (by simp) (fun x hx => (hgood x hx).2.2.2)
  have hdec : (decide ((joinSep 47 (s :: rest)).head? = some 47)) = false := by
    simpa using hrooted
  simp only [hdec, hsplit]
  rw [cleanSegs_good false (s :: rest) [] (fun x hx => ⟨(hgood x hx).1, (hgood x hx).2.1, (hgood x hx).2.2.1⟩)]
  rw [List.reverse_nil, List.nil_append, if_neg hp]

theorem goJoin_of_good (segs : List Str)
    (hne : segs ≠ [])
    (hgood : ∀ s ∈ segs, s ≠ [] ∧ s ≠ [46] ∧ s ≠ [46, 46] ∧ 47 ∉ s) :
    goJoin segs = joinSep 47 segs := by
  obtain ⟨s, rest, rfl⟩ := List.exists_cons_of_ne_nil hne
  have hs1 : s ≠ [] := (hgood s (by simp)).1
  unfold goJoin
  have : (s :: rest).dropWhile (fun e => e = []) = s :: rest := by
    rw [List.dropWhile_cons_of_neg (by simpa using hs1)]
  rw [this]
  exact pathClean_of_good (s :: rest) (by simp) hgood

/-- Properties of the segments surviving sanitization. -/
theorem sanitized_segs_good (parts : List Str)
    (hparts : ∀ p ∈ parts, 47 ∉ p) :
    ∀ s ∈ (parts.map sanitizePathSegment).filter (fun p => p ≠ []),
      s ≠ [] ∧ s ≠ [46] ∧ s ≠ [46, 46] ∧ 47 ∉ s := by
  intro s hs
  rcases List.mem_filter.1 hs with ⟨hmem, hne⟩
  rcases List.mem_map.1 hmem with ⟨part, hpart, rfl⟩
  have hne' : sanitizePathSegment part ≠ [] := by simpa using hne
  refine ⟨hne', ?_, ?_, sanitizePathSegment_no_slash part (hparts part hpart)⟩
  · intro he
    exact sanitizePathSegment_getLast_ne_dot part (by rw [he]; rfl)
  · intro he
    exact sanitizePathSegment_getLast_ne_dot part (by rw [he]; rfl)

/-- C2 core: for every input byte string, the sanitized path neither starts
with a path separator (never absolute) nor contains a `..` segment. -/
theorem sanitizePath_safe (s : Str) :
    (sanitizePath s).head? ≠ some 47 ∧
      ∀ seg ∈ splitOn 47 (sanitizePath s), seg ≠ [46, 46] := by
  unfold sanitizePath
  set path := stripDotSlash (trimPref (str "webpack://") s) with hpath
  set parts := splitOn 47 path with hparts
  set sanitized := (parts.map sanitizePathSegment).filter (fun p => p ≠ []) with hsan
  have hgood : ∀ x ∈ sanitized, x ≠ [] ∧ x ≠ [46] ∧ x ≠ [46, 46] ∧ 47 ∉ x :=
    sanitized_segs_good parts (mem_splitOn_no_sep 47 path)
  by_cases hempty : sanitized = []
  · rw [if_pos hempty]
    constructor
    · simp
    · intro seg hseg
      simp [splitOn, splitOnAux] at hseg
      simp [hseg]
  · rw [if_neg hempty]
    rw [goJoin_of_good sanitized hempty hgood]
    obtain ⟨s0, rest, hcons⟩ := List.exists_cons_of_ne_nil hempty
    constructor
    · rw [hcons, joinSep_head? 47 s0 rest (hgood s0 (by rw [hcons]; simp)).1]
      obtain ⟨c, cs, hc⟩ := List.exists_cons_of_ne_nil (hgood s0 (by rw [hcons]; simp)).1
      have : c ≠ 47 := by
        intro he
        exact (hgood s0 (by rw [hcons]; simp)).2.2.2 (by rw [hc, he]; simp)
      rw [hc]
      simp [this]
    · rw [splitOn_joinSep 47 sanitized hempty (fun x hx => (hgood x hx).2.2.2)]
      intro seg hseg
      exact (hgood seg hseg).2.2.1

/-! ## Index pairing (claim C1) -/


theorem restoreLoop_eq_pairs (env : Env) (outputDir : Str)
    (opts : Option RestoreOptions) :
    ∀ (src : List Str) (cont : List Str) (i : Nat) (st : RestoreResult × FS),
      restoreLoop env outputDir opts src cont i st
        = restorePairs env outputDir opts
            (List.enumFrom i (src.zip (cont.drop i))) st := by
  intro src
  induction src with
  | nil => intro cont i st; simp [restoreLoop, restorePairs]
  | cons s rest ih =>
    intro cont i st
    by_cases h : cont.length ≤ i
    · rw [restoreLoop, if_pos h, List.drop_eq_nil_of_le h, List.zip_nil_right]
      simp [restorePairs]
    · push_neg at h
      rw [restoreLoop, if_neg (by omega), List.drop_eq_getElem_cons h]
      rw [List.zip_cons_cons]
      show _ = restorePairs env outputDir opts
        ((i, s, cont[i]) :: List.enumFrom (i + 1) (rest.zip (cont.drop (i + 1)))) st
      rw [restorePairs, List.foldl_cons]
      rw [List.getD_eq_getElem cont [] h]
      exact ih cont (i + 1) _

/-- C1: `RestoreSourcesWithOptions` is exactly the in-order fold of the
per-entry body over `zip sources sourcesContent` enumerated from index 0 —
entry `i` pairs `sources[i]` with `sourcesContent[i]`, with no reordering or
filtering before pairing — and that zip has length `min m k`. -/
theorem restore_index_pairing (env : Env) (sm : SourceMap) (outputDir : Str)
    (opts : Option RestoreOptions) (fs : FS) :
    RestoreSourcesWithOptions env sm outputDir opts fs
      = restorePairs env outputDir opts
          (sm.sources.zip sm.sourcesContent).enum ({}, fs) ∧
    (sm.sources.zip sm.sourcesContent).length
      = min sm.sources.length sm.sourcesContent.length := by
  refine ⟨?_, List.length_zip ..⟩
  unfold RestoreSourcesWithOptions
  by_cases h : sm.sourcesContent.length = 0
  · rw [if_pos h, List.length_eq_zero.1 h, List.zip_nil_right]
    simp [restorePairs]
  · rw [if_neg h, restoreLoop_eq_pairs]
    rfl

/-! ## State accumulation lemmas -/


theorem addRR_assoc (a b c : RestoreResult) :
    addRR (addRR a b) c = addRR a (addRR b c) := by
  simp [addRR, Nat.add_assoc]

theorem addRR_init (a : RestoreResult) : addRR a {} = a := by
  simp [addRR]

theorem writeFile_shift (env : Env) (p c : Str) (fs : FS) :
    writeFile env p c fs
      = ((writeFile env p c []).1, fs ++ (writeFile env p c []).2) := by
  unfold writeFile
  by_cases h : env.mkdirOk (goDir p)
  · by_cases h2 : env.writeOk p (Format env c p) <;> simp [h, h2]
  · simp [h]

theorem tryFetch_shift (env : Env) (c op bu : Str) (fs : FS) :
    tryFetchRealAsset env c op bu fs
      = ((tryFetchRealAsset env c op bu []).1,
         fs ++ (tryFetchRealAsset env c op bu []).2) := by
  unfold tryFetchRealAsset
  by_cases h1 : extractWebpackAssetURL c = []
  · simp [h1]
  · rw [if_neg h1, if_neg h1]
    cases hr : resolveAssetURL env bu (extractWebpackAssetURL c) with
    | none => simp [hr]
    | some u =>
      cases hf : env.fetch u with
      | none => simp [hr, hf]
      | some d =>
        by_cases hm : env.mkdirOk (goDir op)
        · by_cases hw : env.writeOk op d <;> simp [hr, hf, hm, hw]
        · simp [hr, hf, hm]

theorem processEntryAt_shift (env : Env) (d : Str) (o : Option RestoreOptions)
    (s c vp : Str) (r : RestoreResult) (fs : FS) :
    processEntryAt env d o s c vp (r, fs)
      = (addRR r (processEntryAt env d o s c vp ({}, [])).1,
         fs ++ (processEntryAt env d o s c vp ({}, [])).2) := by
  obtain ⟨r1, r2, r3, r4⟩ := r
  unfold processEntryAt
  by_cases hm : (isMediaExtension vp && isJavaScriptContent c) = true
  · by_cases ho : optsHasFetch o = true
    · simp only [hm, ho, if_true]
      rw [tryFetch_shift env c (goJoin [d, vp]) (optsBaseURL o) fs]
      cases hfr : (tryFetchRealAsset env c (goJoin [d, vp]) (optsBaseURL o) []).1 <;>
        simp [hfr, addRR]
    · simp [hm, ho, addRR]
  · rw [if_neg hm, if_neg hm]
    rw [writeFile_shift env (goJoin [d, vp]) c fs]
    cases hwr : (writeFile env (goJoin [d, vp]) c []).1 <;> simp [hwr, addRR]

theorem processEntry_shift (env : Env) (d : Str) (o : Option RestoreOptions)
    (i : Nat) (s c : Str) (r : RestoreResult) (fs : FS) :
    processEntry env d o i s c (r, fs)
      = (addRR r (processEntry env d o i s c ({}, [])).1,
         fs ++ (processEntry env d o i s c ({}, [])).2) := by
  unfold processEntry
  by_cases hc : c = []
  · obtain ⟨r1, r2, r3, r4⟩ := r
    simp [hc, addRR]
  · rw [if_neg hc, if_neg hc]
    exact processEntryAt_shift env d o s c (virtualPathOf i s) r fs

theorem restorePairs_shift (env : Env) (d : Str) (o : Option RestoreOptions) :
    ∀ (entries : List (Nat × (Str × Str))) (r : RestoreResult) (fs : FS),
      restorePairs env d o entries (r, fs)
        = (addRR r (restorePairs env d o entries ({}, [])).1,
           fs ++ (restorePairs env d o entries ({}, [])).2) := by
  intro entries
  induction entries with
  | nil => intro r fs; simp [restorePairs, addRR_init]
  | cons e rest ih =>
    intro r fs
    have hpe := processEntry_shift env d o e.1 e.2.1 e.2.2
    have hstep : ∀ (r' : RestoreResult) (fs' : FS),
        restorePairs env d o (e :: rest) (r', fs')
          = restorePairs env d o rest (processEntry env d o e.1 e.2.1 e.2.2 (r', fs')) := by
      intro r' fs'; rfl
    rw [hstep r fs, hstep]
    rw [hpe r fs]
    set pe := processEntry env d o e.1 e.2.1 e.2.2 ({}, []) with hpedef
    have hib := ih (addRR r pe.1) (fs ++ pe.2)
    rw [hib]
    have hib2 := ih pe.1 pe.2
    rw [Prod.mk.eta] at hib2
    rw [hib2]
    simp [addRR_assoc]

theorem restorePairs_errors (env : Env) (d : Str) (o : Option RestoreOptions) :
    ∀ entries : List (Nat × (Str × Str)),
      (restorePairs env d o entries ({}, [])).1.errors
        = (entries.map
            (fun e => (processEntry env d o e.1 e.2.1 e.2.2 ({}, [])).1.errors)).flatten := by
  intro entries
  induction entries with
  | nil => simp [restorePairs]
  | cons e rest ih =>
    have hstep : restorePairs env d o (e :: rest) ({}, [])
        = restorePairs env d o rest (processEntry env d o e.1 e.2.1 e.2.2 ({}, [])) := rfl
    rw [hstep]
    set pe := processEntry env d o e.1 e.2.1 e.2.2 ({}, []) with hpedef
    have hib := restorePairs_shift env d o rest pe.1 pe.2
    rw [Prod.mk.eta] at hib
    rw [hib]
    simp only [addRR, List.map_cons, List.flatten_cons]
    rw [ih]

theorem writeFile_fail_fs (env : Env) (p c : Str) (fs : FS)
    (h : (writeFile env p c fs).1 = false) : (writeFile env p c fs).2 = fs := by
  unfold writeFile at *
  by_cases hm : env.mkdirOk (goDir p)
  · by_cases hw : env.writeOk p (Format env c p)
    · simp [hm, hw] at h
    · simp [hm, hw]
  · simp [hm]

theorem tryFetch_fail_fs (env : Env) (c op bu : Str) (fs : FS)
    (h : (tryFetchRealAsset env c op bu fs).1 = false) :
    (tryFetchRealAsset env c op bu fs).2 = fs := by
  unfold tryFetchRealAsset at h ⊢
  by_cases h1 : extractWebpackAssetURL c = []
  · simp [h1]
  · rw [if_neg h1] at h ⊢
    cases hr : resolveAssetURL env bu (extractWebpackAssetURL c) with
    | none => simp [hr]
    | some u =>
      simp only [hr] at h ⊢
      cases hf : env.fetch u with
      | none => simp
      | some d =>
        simp only [hf] at h ⊢
        by_cases hm : env.mkdirOk (goDir op)
        · by_cases hw : env.writeOk op d
          · simp [hm, hw] at h
          · simp [hm, hw]
        · simp [hm]



theorem Format_beautify_none (env : Env) (hb : ∀ c, env.beautify c = none)
    (c p : Str) : Format env c p = c := by
  unfold Format
  by_cases h : isJSFile (goExt p) <;> simp [h, hb]

theorem writeFile_allOk (env : Env)
    (hw : ∀ p c, env.writeOk p c = true) (hm : ∀ p, env.mkdirOk p = true)
    (p c : Str) (fs : FS) :
    writeFile env p c fs = (true, fs ++ [(p, Format env c p)]) := by
  unfold writeFile
  simp [hm, hw]

theorem processEntry_write_ok (env : Env)
    (hw : ∀ p c, env.writeOk p c = true) (hm : ∀ p, env.mkdirOk p = true)
    (hb : ∀ c, env.beautify c = none)
    (d : Str) (o : Option RestoreOptions) (i : Nat) (s c : Str)
    (r : RestoreResult) (fs : FS) (hc : c ≠ [])
    (hmedia : (isMediaExtension (virtualPathOf i s) && isJavaScriptContent c) = false) :
    processEntry env d o i s c (r, fs)
      = ({ r with restoredCount := r.restoredCount + 1 },
         fs ++ [(goJoin [d, virtualPathOf i s], c)]) := by
  unfold processEntry
  rw [if_neg hc]
  unfold processEntryAt
  rw [if_neg (by simp [hmedia])]
  rw [writeFile_allOk env hw hm, Format_beautify_none env hb]
  simp [hw]

theorem restoreLoop_cons_eq (env : Env) (d : Str) (o : Option RestoreOptions)
    (s : Str) (rest : List Str) (cont : List Str) (i : Nat)
    (st : RestoreResult × FS) (h : i < cont.length) :
    restoreLoop env d o (s :: rest) cont i st
      = restoreLoop env d o rest cont (i + 1)
          (processEntry env d o i s (cont.getD i []) st) := by
  rw [restoreLoop, if_neg (by omega)]

/-! ## Claim theorems C3, C4, C6, C7 -/

/-- C3: on the concrete sourcemap with a webpack-prefixed path and a
traversal path, restoration writes `src/App.js` with `console.log(1)` and
`src/etc/evil.js` (traversal collapsed) with `console.log(2)`, and reports
`RestoredCount = 2` — for any environment whose writes succeed and whose
beautifier falls back to the original content. -/
theorem restore_traversal_example (env : Env)
    (hw : ∀ p c, env.writeOk p c = true)
    (hm : ∀ p, env.mkdirOk p = true)
    (hb : ∀ c, env.beautify c = none) :
    RestoreSourcesWithOptions env
        { sources := [str "webpack:///./src/App.js",
                      str "webpack:///./src/../../etc/evil.js"],
          sourcesContent := [str "console.log(1)", str "console.log(2)"] }
        [] none []
      = ({ restoredCount := 2 },
         [(str "src/App.js", str "console.log(1)"),
          (str "src/etc/evil.js", str "console.log(2)")]) := by
  have h1 := processEntry_write_ok env hw hm hb [] none 0
      (str "webpack:///./src/App.js") (str "console.log(1)") {} []
      (by decide) (by decide)
  have h2 := processEntry_write_ok env hw hm hb [] none 1
      (str "webpack:///./src/../../etc/evil.js") (str "console.log(2)")
      { restoredCount := 1 } [(str "src/App.js", str "console.log(1)")]
      (by decide) (by decide)
  unfold RestoreSourcesWithOptions
  rw [if_neg (by decide)]
  trans (restoreLoop env [] none [str "webpack:///./src/../../etc/evil.js"]
      [str "console.log(1)", str "console.log(2)"] 1
      ({ restoredCount := 1 }, [(str "src/App.js", str "console.log(1)")]))
  · rw [restoreLoop_cons_eq env [] none _ _ _ 0 _ (by decide)]
    congr 1
  · trans (restoreLoop env [] none ([] : List Str)
        [str "console.log(1)", str "console.log(2)"] 2
        ({ restoredCount := 2 },
         [(str "src/App.js", str "console.log(1)"),
          (str "src/etc/evil.js", str "console.log(2)")]))
    · rw [restoreLoop_cons_eq env [] none _ _ _ 1 _ (by decide)]
      congr 1
    · rw [restoreLoop]

theorem restore_traversal_example_witness :
    RestoreSourcesWithOptions alwaysOkEnv
        { sources := [str "webpack:///./src/App.js",
                      str "webpack:///./src/../../etc/evil.js"],
          sourcesContent := [str "console.log(1)", str "console.log(2)"] }
        [] none []
      = ({ restoredCount := 2 },
         [(str "src/App.js", str "console.log(1)"),
          (str "src/etc/evil.js", str "console.log(2)")]) :=
  restore_traversal_example alwaysOkEnv (fun _ _ => rfl) (fun _ => rfl)
    (fun _ => rfl)

/-- C4: an entry whose path has a media extension and whose content starts
with a script marker is a loader stub (`a.svg` with an `export default`
body is one; an `<svg` body is not), and every stub entry is skipped with
no file written whenever no fetcher or base URL is configured or the fetch
attempt fails. -/
theorem stub_skip_policy :
    (isMediaExtension (str "a.svg")
        && isJavaScriptContent (str "export default \"static/media/a.svg\"")) = true ∧
    isJavaScriptContent (str "<svg xmlns=\"http://www.w3.org/2000/svg\"><path/></svg>")
        = false ∧
    ∀ (env : Env) (outputDir : Str) (opts : Option RestoreOptions)
      (source content virtualPath : Str) (st : RestoreResult × FS),
      (isMediaExtension virtualPath && isJavaScriptContent content) = true →
      (optsHasFetch opts = false ∨
        (tryFetchRealAsset env content (goJoin [outputDir, virtualPath])
            (optsBaseURL opts) st.2).1 = false) →
      processEntryAt env outputDir opts source content virtualPath st
        = ({ st.1 with skippedCount := st.1.skippedCount + 1 }, st.2) := by
  refine ⟨by decide, by decide, ?_⟩
  intro env d o s c vp st hstub hno
  obtain ⟨r, fs⟩ := st
  unfold processEntryAt
  rw [if_pos hstub]
  rcases hno with hno | hno
  · rw [if_neg (by simp [hno])]
  · by_cases ho : optsHasFetch o = true
    · rw [if_pos ho]
      simp only at hno
      rw [if_neg (by simp [hno])]
      rw [tryFetch_fail_fs env c (goJoin [d, vp]) (optsBaseURL o) fs hno]
    · rw [if_neg ho]

theorem stub_skip_policy_witness :
    (isMediaExtension (str "a.svg")
        && isJavaScriptContent (str "export default \"static/media/a.svg\"")) = true ∧
    processEntryAt alwaysOkEnv [] none (str "a.svg")
        (str "export default \"static/media/a.svg\"") (str "a.svg") ({}, [])
      = ({ skippedCount := 1 }, []) := by
  refine ⟨stub_skip_policy.1, ?_⟩
  have h := stub_skip_policy.2.2 alwaysOkEnv [] none (str "a.svg")
      (str "export default \"static/media/a.svg\"") (str "a.svg") ({}, [])
      (by decide) (Or.inl (by decide))
  simpa using h

/-- C6: when the sanitized path of a nonempty-content entry is empty or
longer than 255 bytes, the entry proceeds with the deterministic fallback
name `source_<i>.js`, and (under an environment whose writes succeed) this
substitution is never reported through the error list. -/
theorem fallback_naming (env : Env) (outputDir : Str)
    (opts : Option RestoreOptions) (i : Nat) (source content : Str)
    (st : RestoreResult × FS)
    (hc : content ≠ [])
    (hbad : sanitizePath source = [] ∨ 255 < (sanitizePath source).length) :
    virtualPathOf i source = fallbackName i ∧
    processEntry env outputDir opts i source content st
      = processEntryAt env outputDir opts source content (fallbackName i) st ∧
    ((∀ p c, env.writeOk p c = true) → (∀ p, env.mkdirOk p = true) →
      (processEntry env outputDir opts i source content st).1.errors
        = st.1.errors) := by
  have hvp : virtualPathOf i source = fallbackName i := by
    unfold virtualPathOf
    rw [if_pos hbad]
  refine ⟨hvp, ?_, ?_⟩
  · unfold processEntry
    rw [if_neg hc, hvp]
  · intro hw hm
    obtain ⟨r, fs⟩ := st
    unfold processEntry
    rw [if_neg hc, hvp]
    unfold processEntryAt
    by_cases hmed :
        (isMediaExtension (fallbackName i) && isJavaScriptContent content) = true
    · rw [if_pos hmed]
      by_cases ho : optsHasFetch opts = true
      · rw [if_pos ho]
        by_cases hfr : (tryFetchRealAsset env content
            (goJoin [outputDir, fallbackName i]) (optsBaseURL opts) fs).1 = true
        · rw [if_pos hfr]
        · rw [if_neg hfr]
      · rw [if_neg ho]
    · rw [if_neg hmed]
      rw [writeFile_allOk env hw hm]
      simp

theorem fallback_naming_witness :
    ((str "x" : Str) ≠ [] ∧ sanitizePath (str "...") = []) ∧
    virtualPathOf 0 (str "...") = fallbackName 0 ∧
    (processEntry alwaysOkEnv [] none 0 (str "...") (str "x") ({}, [])).1.errors
      = [] := by
  refine ⟨⟨by decide, by decide⟩, ?_, ?_⟩
  · exact (fallback_naming alwaysOkEnv [] none 0 (str "...") (str "x") ({}, [])
      (by decide) (Or.inl (by decide))).1
  · exact (fallback_naming alwaysOkEnv [] none 0 (str "...") (str "x") ({}, [])
      (by decide) (Or.inl (by decide))).2.2 (fun _ _ => rfl) (fun _ => rfl)

/-- C7: all entry-level failures are accumulated in declared array order
(the error list of a run is the in-order concatenation of the per-entry
error lists — so no failure aborts the remaining entries), and an entry
whose file write fails contributes exactly its own error, leaves the write
log unchanged, and changes no counters. -/
theorem restore_error_isolation (env : Env) (outputDir : Str)
    (opts : Option RestoreOptions) (sm : SourceMap) (fs : FS) :
    ((RestoreSourcesWithOptions env sm outputDir opts fs).1.errors
        = ((sm.sources.zip sm.sourcesContent).enum.map
            (fun e => (processEntry env outputDir opts e.1 e.2.1 e.2.2
                ({}, [])).1.errors)).flatten) ∧
    (∀ (i : Nat) (s c : Str) (st : RestoreResult × FS), c ≠ [] →
      (isMediaExtension (virtualPathOf i s) && isJavaScriptContent c) = false →
      (writeFile env (goJoin [outputDir, virtualPathOf i s]) c st.2).1 = false →
      processEntry env outputDir opts i s c st
        = ({ st.1 with errors := st.1.errors ++ [s] }, st.2)) := by
  constructor
  · unfold RestoreSourcesWithOptions
    by_cases h : sm.sourcesContent.length = 0
    · rw [if_pos h, List.length_eq_zero.1 h, List.zip_nil_right]
      simp
    · rw [if_neg h, restoreLoop_eq_pairs]
      rw [show List.enumFrom 0 (sm.sources.zip (sm.sourcesContent.drop 0))
          = (sm.sources.zip sm.sourcesContent).enum from by rw [List.drop_zero]; rfl]
      rw [restorePairs_shift env outputDir opts
        ((sm.sources.zip sm.sourcesContent).enum) {} fs]
      simp only [addRR]
      rw [restorePairs_errors]
      simp
  · intro i s c st hc hmedia hwf
    obtain ⟨r, fs'⟩ := st
    unfold processEntry
    rw [if_neg hc]
    unfold processEntryAt
    rw [if_neg (by simp [hmedia])]
    simp only at hwf
    rw [if_neg (by simp [hwf])]
    rw [writeFile_fail_fs env (goJoin [outputDir, virtualPathOf i s]) c fs' hwf]

theorem restore_error_isolation_witness :
    ((RestoreSourcesWithOptions failWriteEnv
        { sources := [str "a.js", str "b.js"],
          sourcesContent := [str "var a = 1", str "var b = 2"] } [] none []).1.errors
      = (((([str "a.js", str "b.js"] : List Str).zip
            ([str "var a = 1", str "var b = 2"] : List Str)).enum.map
          (fun e => (processEntry failWriteEnv [] none e.1 e.2.1 e.2.2
              ({}, [])).1.errors)).flatten)) ∧
    processEntry failWriteEnv [] none 0 (str "a.js") (str "var a = 1") ({}, [])
      = ({ errors := [str "a.js"] }, []) := by
  constructor
  · exact (restore_error_isolation failWriteEnv [] none
      { sources := [str "a.js", str "b.js"],
        sourcesContent := [str "var a = 1", str "var b = 2"] } []).1
  · have h := (restore_error_isolation failWriteEnv [] none {} []).2
      0 (str "a.js") (str "var a = 1") ({}, []) (by decide) (by decide) (by decide)
    simpa using h

/-! ## MIME mapping (claim C5) -/

theorem splitOn_eq_single (sep : Nat) (s : Str) (h : sep ∉ s) :
    splitOn sep s = [s] := by
  have h2 := splitOnAux_append_no_sep sep s [] [] h
  rw [List.append_nil] at h2
  show splitOnAux sep s [] = [s]
  rw [h2]
  simp [splitOnAux]

/-- C5 counterexample: the claim says `extensionFromMIME "application/x-custom"`
is `"custom"`; the code returns the whole subtype `"x-custom"`, because the
`+`-truncation only applies when the subtype contains a `+`. -/
theorem mime_xcustom_counterexample :
    extensionFromMIME (str "application/x-custom") = str "x-custom" ∧
    str "x-custom" ≠ str "custom" := by
  exact ⟨by decide, by decide⟩

/-- C5 amended: `image/svg+xml` hits the table and yields `svg`; the
unrecognized `application/x-custom` yields the whole subtype `x-custom`
(there is no `+` to truncate at); and every MIME string containing no
slash yields the generic binary extension `bin`. -/
theorem mime_fallback_chain :
    extensionFromMIME (str "image/svg+xml") = str "svg" ∧
    extensionFromMIME (str "application/x-custom") = str "x-custom" ∧
    extensionFromMIME (str "application/vnd+custom") = str "vnd" ∧
    ∀ mime : Str, 47 ∉ mime → extensionFromMIME mime = str "bin" := by
  refine ⟨by decide, by decide, by decide, ?_⟩
  intro mime h
  unfold extensionFromMIME
  have hkeys : ∀ q ∈ mimeToExt, (47 : Nat) ∈ q.1 := by decide
  have hfind : mimeToExt.find? (fun p => p.1 == mime) = none := by
    rw [List.find?_eq_none]
    intro p hp hbeq
    have heq : p.1 = mime := by simpa using hbeq
    exact h (heq ▸ hkeys p hp)
  rw [hfind]
  rw [splitOn_eq_single 47 mime h]
  simp

theorem mime_fallback_chain_witness :
    ((47 : Nat) ∉ str "nomime") ∧ extensionFromMIME (str "nomime") = str "bin" :=
  ⟨by decide, mime_fallback_chain.2.2.2 (str "nomime") (by decide)⟩

/-! ## Mapping-URL extraction (claims C9, C10) -/

theorem scanMapRev_none :
    ∀ lines : List Str, (∀ l ∈ lines, findMappingURL l = none) →
      scanMapRev lines = []
  | [] => fun _ => rfl
  | line :: rest => by
    intro h
    rw [scanMapRev, h line (by simp)]
    exact scanMapRev_none rest (fun l hl => h l (List.mem_cons_of_mem _ hl))

/-- C9: `ExtractSourceMappingURL` depends only on the last-ten-lines window
of the trimmed script (scripts with equal windows extract equally); it
returns the empty string when no line of the window matches the
reference-comment pattern; and as soon as the end-to-start scan hits a line
whose matched URL is a `data:` URI, the empty string is returned. -/
theorem mapping_url_extraction (s t : Str) :
    (mapWindow s = mapWindow t →
      ExtractSourceMappingURL s = ExtractSourceMappingURL t) ∧
    ((∀ l ∈ mapWindow s, findMappingURL l = none) →
      ExtractSourceMappingURL s = []) ∧
    (∀ (line : Str) (rest : List Str) (m : Str),
      findMappingURL line = some m →
      (str "data:").isPrefixOf (trimSpace m) = true →
      scanMapRev (line :: rest) = []) := by
  refine ⟨?_, ?_, ?_⟩
  · intro h
    show scanMapRev (mapWindow s).reverse = scanMapRev (mapWindow t).reverse
    rw [h]
  · intro h
    show scanMapRev (mapWindow s).reverse = []
    exact scanMapRev_none _ (fun l hl => h l (List.mem_reverse.1 hl))
  · intro line rest m hm hdata
    rw [scanMapRev, hm]
    simp only [hdata, if_true]

theorem mapping_url_extraction_witness :
    (ExtractSourceMappingURL
        (str "//# sourceMappingURL=early.map\na\nb\nc\nd\ne\nf\ng\nh\ni\nj")
      = ExtractSourceMappingURL
        (str "var x = 0;\na\nb\nc\nd\ne\nf\ng\nh\ni\nj")) ∧
    ExtractSourceMappingURL
        (str "//# sourceMappingURL=early.map\na\nb\nc\nd\ne\nf\ng\nh\ni\nj") = [] ∧
    scanMapRev [str "//# sourceMappingURL=data:application/json;base64,eyJ2IjozfQ=="] = [] := by
  refine ⟨?_, ?_, ?_⟩
  · exact (mapping_url_extraction
      (str "//# sourceMappingURL=early.map\na\nb\nc\nd\ne\nf\ng\nh\ni\nj")
      (str "var x = 0;\na\nb\nc\nd\ne\nf\ng\nh\ni\nj")).1 (by decide)
  · refine (mapping_url_extraction
      (str "//# sourceMappingURL=early.map\na\nb\nc\nd\ne\nf\ng\nh\ni\nj")
      (str "")).2.1 ?_
    decide
  · exact (mapping_url_extraction [] []).2.2
      (str "//# sourceMappingURL=data:application/json;base64,eyJ2IjozfQ==") []
      (str "data:application/json;base64,eyJ2IjozfQ==") (by decide) (by decide)

/-- C10: `HasInlineSourceMap` probes the whole script while
`ExtractInlineSourceMap` only scans the last ten lines: on a script whose
inline-sourcemap data URI sits before the final ten lines, the probe
reports `true` while extraction returns no sourcemap and no error. -/
theorem inline_probe_window_divergence :
    HasInlineSourceMap
        (str "//# sourceMappingURL=data:application/json;base64,eyJ2ZXJzaW9uIjozfQ==\na\nb\nc\nd\ne\nf\ng\nh\ni\nj")
      = true ∧
    ExtractInlineSourceMap
        (str "//# sourceMappingURL=data:application/json;base64,eyJ2ZXJzaW9uIjozfQ==\na\nb\nc\nd\ne\nf\ng\nh\ni\nj")
      = .ok none :=
  ⟨rfl, rfl⟩

/-! ## Base64 round trip (towards claim C8) -/

theorem b64val_chr : ∀ n : Nat, n < 64 → b64val (b64chr n) = some n := by
  decide

theorem b64chr_ne_61 (n : Nat) : b64chr n ≠ 61 := by
  unfold b64chr
  split_ifs <;> omega

theorem b64Class_chr (n : Nat) : b64Class (b64chr n) = true := by
  unfold b64chr b64Class
  split_ifs <;> simp <;> omega

theorem b64decodeGroups_encode :
    ∀ bs : Str, (∀ b ∈ bs, b < 256) → b64decodeGroups (b64encode bs) = some bs
  | [] => fun _ => rfl
  | [b1] => by
    intro h
    have hb1 : b1 < 256 := h b1 (by simp)
    show b64decodeGroups [b64chr (b1 / 4), b64chr ((b1 % 4) * 16), 61, 61] = some [b1]
    rw [b64decodeGroups, b64val_chr (b1 / 4) (by omega),
      b64val_chr ((b1 % 4) * 16) (by omega)]
    simp only [Option.bind_eq_bind, Option.some_bind]
    rw [if_pos trivial, if_pos (show True ∧ True from ⟨trivial, trivial⟩)]
    congr 1
    have : b1 / 4 * 4 + (b1 % 4) * 16 / 16 = b1 := by omega
    rw [this]
  | [b1, b2] => by
    intro h
    have hb1 : b1 < 256 := h b1 (by simp)
    have hb2 : b2 < 256 := h b2 (by simp)
    show b64decodeGroups [b64chr (b1 / 4), b64chr ((b1 % 4) * 16 + b2 / 16),
      b64chr ((b2 % 16) * 4), 61] = some [b1, b2]
    rw [b64decodeGroups, b64val_chr (b1 / 4) (by omega),
      b64val_chr ((b1 % 4) * 16 + b2 / 16) (by omega)]
    simp only [Option.bind_eq_bind, Option.some_bind]
    rw [if_neg (b64chr_ne_61 ((b2 % 16) * 4))]
    rw [b64val_chr ((b2 % 16) * 4) (by omega)]
    simp only [Option.bind_eq_bind, Option.some_bind]
    rw [if_pos trivial, if_pos trivial]
    congr 1
    have e1 : b1 / 4 * 4 + ((b1 % 4) * 16 + b2 / 16) / 16 = b1 := by omega
    have e2 : ((b1 % 4) * 16 + b2 / 16) % 16 * 16 + (b2 % 16) * 4 / 4 = b2 := by omega
    rw [e1, e2]
  | b1 :: b2 :: b3 :: rest => by
    intro h
    have hb1 : b1 < 256 := h b1 (by simp)
    have hb2 : b2 < 256 := h b2 (by simp)
    have hb3 : b3 < 256 := h b3 (by simp)
    show b64decodeGroups (b64chr (b1 / 4) :: b64chr ((b1 % 4) * 16 + b2 / 16) ::
      b64chr ((b2 % 16) * 4 + b3 / 64) :: b64chr (b3 % 64) :: b64encode rest)
        = some (b1 :: b2 :: b3 :: rest)
    rw [b64decodeGroups, b64val_chr (b1 / 4) (by omega),
      b64val_chr ((b1 % 4) * 16 + b2 / 16) (by omega)]
    simp only [Option.bind_eq_bind, Option.some_bind]
    rw [if_neg (b64chr_ne_61 ((b2 % 16) * 4 + b3 / 64))]
    rw [b64val_chr ((b2 % 16) * 4 + b3 / 64) (by omega)]
    simp only [Option.bind_eq_bind, Option.some_bind]
    rw [if_neg (b64chr_ne_61 (b3 % 64))]
    rw [b64val_chr (b3 % 64) (by omega)]
    simp only [Option.bind_eq_bind, Option.some_bind]
    rw [b64decodeGroups_encode rest (fun b hb => h b (by simp [hb]))]
    simp only [Option.bind_eq_bind, Option.some_bind]
    congr 1
    have e1 : b1 / 4 * 4 + ((b1 % 4) * 16 + b2 / 16) / 16 = b1 := by omega
    have e2 : ((b1 % 4) * 16 + b2 / 16) % 16 * 16 + ((b2 % 16) * 4 + b3 / 64) / 4 = b2 := by
      omega
    have e3 : ((b2 % 16) * 4 + b3 / 64) % 4 * 64 + b3 % 64 = b3 := by omega
    rw [e1, e2, e3]

/-! ## JSON string round trip -/

theorem hexVal_hexDigit : ∀ n : Nat, n < 16 → hexVal (hexDigit n) = some n := by
  decide

theorem validUTF8_cons (b : Nat) (rest : Str) :
    validUTF8 (b :: rest) = validStep b rest := by
  cases rest with
  | nil => rfl
  | cons c t =>
    cases t with
    | nil => rfl
    | cons d t2 =>
      cases t2 with
      | nil => rfl
      | cons e r => rfl

theorem parseJStrBody_close (rest : Str) : parseJStrBody (34 :: rest) = some ([], rest) := by
  rw [parseJStrBody.eq_def]
  simp

theorem parseJStrBody_esc (e b : Nat) (he : escMap e = some b) (X : Str)
    (res : Str × Str) (hX : parseJStrBody X = some res) :
    parseJStrBody (92 :: e :: X) = some (b :: res.1, res.2) := by
  have he117 : e ≠ 117 := by
    intro h
    rw [h] at he
    simp [escMap] at he
  rw [parseJStrBody.eq_def]
  simp [he117, he, hX]

theorem parseJStrBody_raw (b : Nat) (h1 : b ≠ 34) (h2 : b ≠ 92) (h3 : ¬ b < 32)
    (h4 : b < 128) (X : Str) (res : Str × Str) (hX : parseJStrBody X = some res) :
    parseJStrBody (b :: X) = some (b :: res.1, res.2) := by
  rw [parseJStrBody.eq_def]
  simp [h1, h2, h3, h4, hX]

theorem parseJStrBody_u (b : Nat) (hb : b < 32) (X : Str) (res : Str × Str)
    (hX : parseJStrBody X = some res) :
    parseJStrBody (92 :: 117 :: 48 :: 48 :: hexDigit (b / 16) :: hexDigit (b % 16) :: X)
      = some (b :: res.1, res.2) := by
  rw [parseJStrBody.eq_def]
  simp [show hexVal 48 = some 0 from rfl,
    hexVal_hexDigit (b / 16) (by omega), hexVal_hexDigit (b % 16) (by omega), hX,
    show b / 16 * 16 + b % 16 = b from by omega,
    show ¬ (55296 ≤ b ∧ b ≤ 57343) from by omega,
    show utf8Enc b = [b] from by rw [utf8Enc, if_pos (by omega)]]

theorem utf8Cont_bounds (c : Nat) (h : utf8Cont c = true) : 128 ≤ c ∧ c ≤ 191 := by
  simpa [utf8Cont] using h

theorem jsonEscapeByte_high (b : Nat) (hb : 128 ≤ b) : jsonEscapeByte b = [b] := by
  unfold jsonEscapeByte
  rw [if_neg (by omega), if_neg (by omega), if_neg (by omega), if_neg (by omega),
    if_neg (by omega), if_neg (by omega)]

theorem flatten_map_high :
    ∀ l : Str, (∀ x ∈ l, 128 ≤ x) → (l.map jsonEscapeByte).flatten = l
  | [] => fun _ => rfl
  | a :: t => by
    intro h
    simp only [List.map_cons, List.flatten_cons, jsonEscapeByte_high a (h a (by simp))]
    rw [flatten_map_high t (fun x hx => h x (List.mem_cons_of_mem a hx))]
    rfl

/-- For a non-ASCII leading byte of a valid UTF-8 string, the string parser
copies the whole encoded rune through unchanged: the witness sequence `seq`
with the remainder `r`, the byte bounds, and the copying behaviour. -/
theorem parseJStrBody_copy_seq (b : Nat) (tail : Str)
    (hb : ¬ b < 128) (hv : validUTF8 (b :: tail) = true) :
    ∃ seq r : Str, b :: tail = seq ++ r ∧ validUTF8 r = true ∧
      r.length < tail.length + 1 ∧ (∀ x ∈ seq, 128 ≤ x ∧ x < 256) ∧
      ∀ (X : Str) (res : Str × Str), parseJStrBody X = some res →
        parseJStrBody (seq ++ X) = some (seq ++ res.1, res.2) := by
  rw [validUTF8_cons] at hv
  rw [validStep.eq_def] at hv
  rw [if_neg hb] at hv
  by_cases hb1 : 194 ≤ b ∧ b ≤ 223
  · rw [if_pos hb1] at hv
    match tail, hv with
    | c :: r, hv =>
      simp only [Bool.and_eq_true] at hv
      obtain ⟨hc, hvr⟩ := hv
      obtain ⟨hc1, hc2⟩ := utf8Cont_bounds c hc
      refine ⟨[b, c], r, by simp, hvr, by simp only [List.length_cons]; omega, ?_, ?_⟩
      · intro x hx
        rcases List.mem_cons.1 hx with rfl | hx
        · omega
        rcases List.mem_cons.1 hx with rfl | hx
        · omega
        simp at hx
      · intro X res hX
        show parseJStrBody (b :: c :: X) = _
        rw [parseJStrBody.eq_def]
        simp [show ¬ b = 34 by omega, show ¬ b = 92 by omega, show ¬ b < 32 by omega,
          hb, show utf8CopyLen b (c :: X) = some 1 from by simp [utf8CopyLen, hb1, hc],
          hX]
  · rw [if_neg hb1] at hv
    by_cases hb2 : b = 224
    · subst hb2
      rw [if_pos rfl] at hv
      match tail, hv with
      | c :: d :: r, hv =>
        simp only [Bool.and_eq_true, decide_eq_true_eq] at hv
        obtain ⟨⟨hcr, hd⟩, hvr⟩ := hv
        obtain ⟨hd1, hd2⟩ := utf8Cont_bounds d hd
        refine ⟨[224, c, d], r, by simp, hvr, by simp only [List.length_cons]; omega, ?_, ?_⟩
        · intro x hx
          rcases List.mem_cons.1 hx with rfl | hx
          · omega
          rcases List.mem_cons.1 hx with rfl | hx
          · omega
          rcases List.mem_cons.1 hx with rfl | hx
          · omega
          simp at hx
        · intro X res hX
          show parseJStrBody (224 :: c :: d :: X) = _
          rw [parseJStrBody.eq_def]
          simp [show utf8CopyLen 224 (c :: d :: X) = some 2 from by
            simp [utf8CopyLen, hcr, hd], hX]
    · rw [if_neg hb2] at hv
      by_cases hb3 : 225 ≤ b ∧ b ≤ 236
      · rw [if_pos hb3] at hv
        match tail, hv with
        | c :: d :: r, hv =>
          simp only [Bool.and_eq_true] at hv
          obtain ⟨⟨hc, hd⟩, hvr⟩ := hv
          obtain ⟨hc1, hc2⟩ := utf8Cont_bounds c hc
          obtain ⟨hd1, hd2⟩ := utf8Cont_bounds d hd
          refine ⟨[b, c, d], r, by simp, hvr, by simp only [List.length_cons]; omega, ?_, ?_⟩
          · intro x hx
            rcases List.mem_cons.1 hx with rfl | hx
            · omega
            rcases List.mem_cons.1 hx with rfl | hx
            · omega
            rcases List.mem_cons.1 hx with rfl | hx
            · omega
            simp at hx
          · intro X res hX
            show parseJStrBody (b :: c :: d :: X) = _
            rw [parseJStrBody.eq_def]
            simp [show ¬ b = 34 by omega, show ¬ b = 92 by omega, show ¬ b < 32 by omega,
              hb, show utf8CopyLen b (c :: d :: X) = some 2 from by
                simp [utf8CopyLen, show ¬ (194 ≤ b ∧ b ≤ 223) by omega,
                  show ¬ b = 224 by omega, hb3, hc, hd],
              hX]
      · rw [if_neg hb3] at hv
        by_cases hb4 : b = 237
        · subst hb4
          rw [if_pos rfl] at hv
          match tail, hv with
          | c :: d :: r, hv =>
            simp only [Bool.and_eq_true, decide_eq_true_eq] at hv
            obtain ⟨⟨hcr, hd⟩, hvr⟩ := hv
            obtain ⟨hd1, hd2⟩ := utf8Cont_bounds d hd
            refine ⟨[237, c, d], r, by simp, hvr, by simp only [List.length_cons]; omega, ?_, ?_⟩
            · intro x hx
              rcases List.mem_cons.1 hx with rfl | hx
              · omega
              rcases List.mem_cons.1 hx with rfl | hx
              · omega
              rcases List.mem_cons.1 hx with rfl | hx
              · omega
              simp at hx
            · intro X res hX
              show parseJStrBody (237 :: c :: d :: X) = _
              rw [parseJStrBody.eq_def]
              simp [show utf8CopyLen 237 (c :: d :: X) = some 2 from by
                simp [utf8CopyLen, hcr, hd], hX]
        · rw [if_neg hb4] at hv
          by_cases hb5 : 238 ≤ b ∧ b ≤ 239
          · rw [if_pos hb5] at hv
            match tail, hv with
            | c :: d :: r, hv =>
              simp only [Bool.and_eq_true] at hv
              obtain ⟨⟨hc, hd⟩, hvr⟩ := hv
              obtain ⟨hc1, hc2⟩ := utf8Cont_bounds c hc
              obtain ⟨hd1, hd2⟩ := utf8Cont_bounds d hd
              refine ⟨[b, c, d], r, by simp, hvr, by simp only [List.length_cons]; omega, ?_, ?_⟩
              · intro x hx
                rcases List.mem_cons.1 hx with rfl | hx
                · omega
                rcases List.mem_cons.1 hx with rfl | hx
                · omega
                rcases List.mem_cons.1 hx with rfl | hx
                · omega
                simp at hx
              · intro X res hX
                show parseJStrBody (b :: c :: d :: X) = _
                rw [parseJStrBody.eq_def]
                simp [show ¬ b = 34 by omega, show ¬ b = 92 by omega,
                  show ¬ b < 32 by omega, hb,
                  show utf8CopyLen b (c :: d :: X) = some 2 from by
                    simp [utf8CopyLen, show ¬ (194 ≤ b ∧ b ≤ 223) by omega,
                      show ¬ b = 224 by omega, show ¬ (225 ≤ b ∧ b ≤ 236) by omega,
                      show ¬ b = 237 by omega, hb5, hc, hd],
                  hX]
          · rw [if_neg hb5] at hv
            by_cases hb6 : b = 240
            · subst hb6
              rw [if_pos rfl] at hv
              match tail, hv with
              | c :: d :: e :: r, hv =>
                simp only [Bool.and_eq_true, decide_eq_true_eq] at hv
                obtain ⟨⟨⟨hcr, hd⟩, he⟩, hvr⟩ := hv
                obtain ⟨hd1, hd2⟩ := utf8Cont_bounds d hd
                obtain ⟨he1, he2⟩ := utf8Cont_bounds e he
                refine ⟨[240, c, d, e], r, by simp, hvr, by simp only [List.length_cons]; omega, ?_, ?_⟩
                · intro x hx
                  rcases List.mem_cons.1 hx with rfl | hx
                  · omega
                  rcases List.mem_cons.1 hx with rfl | hx
                  · omega
                  rcases List.mem_cons.1 hx with rfl | hx
                  · omega
                  rcases List.mem_cons.1 hx with rfl | hx
                  · omega
                  simp at hx
                · intro X res hX
                  show parseJStrBody (240 :: c :: d :: e :: X) = _
                  rw [parseJStrBody.eq_def]
                  simp [show utf8CopyLen 240 (c :: d :: e :: X) = some 3 from by
                    simp [utf8CopyLen, hcr, hd, he], hX]
            · rw [if_neg hb6] at hv
              by_cases hb7 : 241 ≤ b ∧ b ≤ 243
              · rw [if_pos hb7] at hv
                match tail, hv with
                | c :: d :: e :: r, hv =>
                  simp only [Bool.and_eq_true] at hv
                  obtain ⟨⟨⟨hc, hd⟩, he⟩, hvr⟩ := hv
                  obtain ⟨hc1, hc2⟩ := utf8Cont_bounds c hc
                  obtain ⟨hd1, hd2⟩ := utf8Cont_bounds d hd
                  obtain ⟨he1, he2⟩ := utf8Cont_bounds e he
                  refine ⟨[b, c, d, e], r, by simp, hvr, by simp only [List.length_cons]; omega, ?_, ?_⟩
                  · intro x hx
                    rcases List.mem_cons.1 hx with rfl | hx
                    · omega
                    rcases List.mem_cons.1 hx with rfl | hx
                    · omega
                    rcases List.mem_cons.1 hx with rfl | hx
                    · omega
                    rcases List.mem_cons.1 hx with rfl | hx
                    · omega
                    simp at hx
                  · intro X res hX
                    show parseJStrBody (b :: c :: d :: e :: X) = _
                    rw [parseJStrBody.eq_def]
                    simp [show ¬ b = 34 by omega, show ¬ b = 92 by omega,
                      show ¬ b < 32 by omega, hb,
                      show utf8CopyLen b (c :: d :: e :: X) = some 3 from by
                        simp [utf8CopyLen, show ¬ (194 ≤ b ∧ b ≤ 223) by omega,
                          show ¬ b = 224 by omega, show ¬ (225 ≤ b ∧ b ≤ 236) by omega,
                          show ¬ b = 237 by omega, show ¬ (238 ≤ b ∧ b ≤ 239) by omega,
                          show ¬ b = 240 by omega, hb7, hc, hd, he],
                      hX]
              · rw [if_neg hb7] at hv
                by_cases hb8 : b = 244
                · subst hb8
                  rw [if_pos rfl] at hv
                  match tail, hv with
                  | c :: d :: e :: r, hv =>
                    simp only [Bool.and_eq_true, decide_eq_true_eq] at hv
                    obtain ⟨⟨⟨hcr, hd⟩, he⟩, hvr⟩ := hv
                    obtain ⟨hd1, hd2⟩ := utf8Cont_bounds d hd
                    obtain ⟨he1, he2⟩ := utf8Cont_bounds e he
                    refine ⟨[244, c, d, e], r, by simp, hvr, by simp only [List.length_cons]; omega, ?_, ?_⟩
                    · intro x hx
                      rcases List.mem_cons.1 hx with rfl | hx
                      · omega
                      rcases List.mem_cons.1 hx with rfl | hx
                      · omega
                      rcases List.mem_cons.1 hx with rfl | hx
                      · omega
                      rcases List.mem_cons.1 hx with rfl | hx
                      · omega
                      simp at hx
                    · intro X res hX
                      show parseJStrBody (244 :: c :: d :: e :: X) = _
                      rw [parseJStrBody.eq_def]
                      simp [show utf8CopyLen 244 (c :: d :: e :: X) = some 3 from by
                        simp [utf8CopyLen, hcr, hd, he], hX]
                · rw [if_neg hb8] at hv
                  simp at hv

theorem parseJStrBody_encAux :
    ∀ (n : Nat) (s : Str), s.length ≤ n → validUTF8 s = true → ∀ rest : Str,
      parseJStrBody ((s.map jsonEscapeByte).flatten ++ 34 :: rest) = some (s, rest) := by
  intro n
  induction n with
  | zero =>
    intro s hlen _ rest
    have hs : s = [] := List.eq_nil_of_length_eq_zero (by omega)
    subst hs
    exact parseJStrBody_close rest
  | succ n ih =>
    intro s hlen hv rest
    cases s with
    | nil => exact parseJStrBody_close rest
    | cons b tail =>
      by_cases hb0 : b < 128
      · have hv' : validUTF8 tail = true := by
          rw [validUTF8_cons] at hv
          simpa [validStep, hb0] using hv
        have htl : tail.length ≤ n := by
          simp only [List.length_cons] at hlen
          omega
        have ihv := ih tail htl hv' rest
        simp only [List.map_cons, List.flatten_cons, List.append_assoc]
        by_cases h34 : b = 34
        · subst h34
          exact parseJStrBody_esc 34 34 rfl _ _ ihv
        · by_cases h92 : b = 92
          · subst h92
            exact parseJStrBody_esc 92 92 rfl _ _ ihv
          · by_cases h10 : b = 10
            · subst h10
              exact parseJStrBody_esc 110 10 rfl _ _ ihv
            · by_cases h13 : b = 13
              · subst h13
                exact parseJStrBody_esc 114 13 rfl _ _ ihv
              · by_cases h9 : b = 9
                · subst h9
                  exact parseJStrBody_esc 116 9 rfl _ _ ihv
                · by_cases hctl : b < 32
                  · rw [show jsonEscapeByte b
                        = [92, 117, 48, 48, hexDigit (b / 16), hexDigit (b % 16)] from by
                      rw [jsonEscapeByte, if_neg h34, if_neg h92, if_neg h10, if_neg h13,
                        if_neg h9, if_pos hctl]]
                    exact parseJStrBody_u b hctl _ _ ihv
                  · rw [show jsonEscapeByte b = [b] from by
                      rw [jsonEscapeByte, if_neg h34, if_neg h92, if_neg h10, if_neg h13,
                        if_neg h9, if_neg hctl]]
                    exact parseJStrBody_raw b h34 h92 hctl hb0 _ _ ihv
      · obtain ⟨seq, r, hsr, hvr, hlt, hbd, hcopy⟩ := parseJStrBody_copy_seq b tail hb0 hv
        have hrl : r.length ≤ n := by
          simp only [List.length_cons] at hlen
          omega
        have ihv := ih r hrl hvr rest
        rw [hsr, List.map_append, List.flatten_append,
          flatten_map_high seq (fun x hx => (hbd x hx).1), List.append_assoc]
        exact hcopy _ (r, rest) ihv

theorem parseJStrBody_enc (s : Str) (hvs : validUTF8 s = true) :
    ∀ rest : Str,
      parseJStrBody ((s.map jsonEscapeByte).flatten ++ 34 :: rest) = some (s, rest) :=
  parseJStrBody_encAux s.length s le_rfl hvs

theorem validUTF8_lt_aux :
    ∀ (n : Nat) (s : Str), s.length ≤ n → validUTF8 s = true → ∀ x ∈ s, x < 256 := by
  intro n
  induction n with
  | zero =>
    intro s hlen _ x hx
    have hs : s = [] := List.eq_nil_of_length_eq_zero (by omega)
    subst hs
    simp at hx
  | succ n ih =>
    intro s hlen hv x hx
    cases s with
    | nil => simp at hx
    | cons b tail =>
      by_cases hb0 : b < 128
      · have hv' : validUTF8 tail = true := by
          rw [validUTF8_cons] at hv
          simpa [validStep, hb0] using hv
        rcases List.mem_cons.1 hx with rfl | hx
        · omega
        · exact ih tail (by simp only [List.length_cons] at hlen; omega) hv' x hx
      · obtain ⟨seq, r, hsr, hvr, hlt, hbd, _⟩ := parseJStrBody_copy_seq b tail hb0 hv
        rw [hsr] at hx
        rcases List.mem_append.1 hx with hx | hx
        · exact (hbd x hx).2
        · exact ih r (by simp only [List.length_cons] at hlen; omega) hvr x hx

theorem validUTF8_lt (s : Str) (hvs : validUTF8 s = true) : ∀ x ∈ s, x < 256 :=
  validUTF8_lt_aux s.length s le_rfl hvs


theorem skipWs_nonws (c : Nat) (h : jsonWs c = false) (t : Str) :
    skipWs (c :: t) = c :: t := by
  unfold skipWs
  rw [List.dropWhile_cons_of_neg (by simp [h])]

theorem parseStrElems_enc :
    ∀ (elems : List Str) (fuel : Nat) (rest : Str), elems ≠ [] →
      elems.length ≤ fuel → (∀ e ∈ elems, validUTF8 e = true) →
      parseStrElems fuel (joinSep 44 (elems.map jsonStr) ++ 93 :: rest)
        = some (elems, rest)
  | [], _, _, h, _, _ => absurd rfl h
  | [e], fuel, rest, _, hf, hval => by
    obtain ⟨f, rfl⟩ : ∃ f, fuel = f + 1 :=
      ⟨fuel - 1, by have := hf; simp at this; omega⟩
    show parseStrElems (f + 1) (jsonStr e ++ 93 :: rest) = some ([e], rest)
    rw [show jsonStr e ++ 93 :: rest
        = 34 :: ((e.map jsonEscapeByte).flatten ++ 34 :: (93 :: rest)) from by
      simp [jsonStr]]
    rw [parseStrElems]
    rw [skipWs_nonws 34 (by decide)]
    simp only [parseJStrBody_enc e (hval e (by simp)), Option.bind_eq_bind,
      Option.some_bind, skipWs_nonws 93 (by decide)]
    simp
  | e :: e' :: els, fuel, rest, _, hf, hval => by
    obtain ⟨f, rfl⟩ : ∃ f, fuel = f + 1 :=
      ⟨fuel - 1, by have := hf; simp at this; omega⟩
    have ih := parseStrElems_enc (e' :: els) f rest (by simp) (by
      have := hf
      simp at this ⊢
      omega) (fun z hz => hval z (List.mem_cons_of_mem e hz))
    show parseStrElems (f + 1)
        ((jsonStr e ++ 44 :: joinSep 44 ((e' :: els).map jsonStr)) ++ 93 :: rest)
      = some (e :: e' :: els, rest)
    rw [show (jsonStr e ++ 44 :: joinSep 44 ((e' :: els).map jsonStr)) ++ 93 :: rest
        = 34 :: ((e.map jsonEscapeByte).flatten
            ++ 34 :: (44 :: (joinSep 44 ((e' :: els).map jsonStr) ++ 93 :: rest))) from by
      simp [jsonStr]]
    rw [parseStrElems]
    rw [skipWs_nonws 34 (by decide)]
    simp only [parseJStrBody_enc e (hval e (by simp)), Option.bind_eq_bind,
      Option.some_bind, skipWs_nonws 44 (by decide)]
    rw [ih]
    simp


theorem joinSep_length_le (sep : Nat) :
    ∀ xs : List Str, (∀ x ∈ xs, 2 ≤ x.length) →
      xs.length ≤ (joinSep sep xs).length
  | [] => by simp
  | [x] => by
    intro h
    have hx := h x (by simp)
    rw [show joinSep sep [x] = x from rfl]
    simp only [List.length_singleton]
    omega
  | x :: y :: r => by
    intro h
    have hx := h x (by simp)
    have ih := joinSep_length_le sep (y :: r)
      (fun z hz => h z (List.mem_cons_of_mem x hz))
    show (x :: y :: r).length ≤ (x ++ sep :: joinSep sep (y :: r)).length
    simp at ih ⊢
    omega

theorem jsonStr_two_le (s : Str) : 2 ≤ (jsonStr s).length := by
  simp [jsonStr]

theorem parseScalar_arr (elems : List Str) (rest : Str)
    (hval : ∀ e ∈ elems, validUTF8 e = true) :
    parseScalar (jsonStrArr elems ++ rest) = some (JVal.jarr elems, rest) := by
  cases elems with
  | nil =>
    show parseScalar (91 :: 93 :: rest) = some (JVal.jarr [], rest)
    rw [parseScalar]
    simp [skipWs_nonws 93 (by decide)]
  | cons e els =>
    rw [show jsonStrArr (e :: els) ++ rest
        = 91 :: (joinSep 44 ((e :: els).map jsonStr) ++ 93 :: rest) from by
      simp [jsonStrArr]]
    rw [parseScalar]
    rw [if_neg (by omega), if_pos rfl]
    have hjoin : ∃ t, joinSep 44 ((e :: els).map jsonStr) = 34 :: t := by
      cases els with
      | nil =>
        refine ⟨(e.map jsonEscapeByte).flatten ++ 34 :: [], ?_⟩
        show jsonStr e = _
        simp [jsonStr]
      | cons e' els' =>
        refine ⟨(e.map jsonEscapeByte).flatten
          ++ 34 :: (44 :: joinSep 44 ((e' :: els').map jsonStr)), ?_⟩
        show jsonStr e ++ 44 :: joinSep 44 ((e' :: els').map jsonStr) = _
        simp [jsonStr]
    obtain ⟨t, ht⟩ := hjoin
    rw [ht]
    rw [show skipWs ((34 :: t) ++ 93 :: rest) = 34 :: (t ++ 93 :: rest) from by
      rw [List.cons_append]
      exact skipWs_nonws 34 (by decide) _]
    show (parseStrElems ((34 :: t) ++ 93 :: rest).length.succ
        ((34 :: t) ++ 93 :: rest)).map _ = _
    rw [← ht]
    rw [parseStrElems_enc (e :: els) _ rest (by simp) (by
      have h1 := joinSep_length_le 44 ((e :: els).map jsonStr)
        (by intro z hz; rcases List.mem_map.1 hz with ⟨w, _, rfl⟩; exact jsonStr_two_le w)
      simp only [List.length_map] at h1
      have h2 : (joinSep 44 ((e :: els).map jsonStr)).length
          ≤ (joinSep 44 ((e :: els).map jsonStr) ++ 93 :: rest).length := by
        simp
      omega) hval]
    rfl

theorem parseScalar_num3 (more : Str) :
    parseScalar (51 :: 44 :: more) = some (JVal.jnum 3, 44 :: more) := by
  rw [parseScalar]
  rw [if_neg (by omega), if_neg (by omega), if_neg (by omega), if_neg (by omega),
    if_neg (by omega)]
  rw [parseJNum.eq_def]
  simp [isDigit, digitsToNat, List.takeWhile_cons]


theorem parseFields_cons (fuel : Nat) (k vE : Str) (v : JVal) (more : Str)
    (kvs : List (Str × JVal)) (final : Str) (hk : validUTF8 k = true)
    (hv : parseScalar (vE ++ 44 :: more) = some (v, 44 :: more))
    (hnws : skipWs (vE ++ 44 :: more) = vE ++ 44 :: more)
    (hrec : parseFields fuel more = some (kvs, final)) :
    parseFields (fuel + 1) (jsonStr k ++ 58 :: (vE ++ 44 :: more))
      = some ((k, v) :: kvs, final) := by
  rw [show jsonStr k ++ 58 :: (vE ++ 44 :: more)
      = 34 :: ((k.map jsonEscapeByte).flatten ++ 34 :: (58 :: (vE ++ 44 :: more))) from by
    simp [jsonStr]]
  rw [parseFields]
  rw [skipWs_nonws 34 (by decide)]
  simp only [parseJStrBody_enc k hk, Option.bind_eq_bind, Option.some_bind,
    skipWs_nonws 58 (by decide)]
  rw [hnws, hv]
  simp only [Option.some_bind, skipWs_nonws 44 (by decide)]
  rw [hrec]
  simp

theorem parseFields_last (fuel : Nat) (k vE : Str) (v : JVal) (final : Str)
    (hk : validUTF8 k = true)
    (hv : parseScalar (vE ++ 125 :: final) = some (v, 125 :: final))
    (hnws : skipWs (vE ++ 125 :: final) = vE ++ 125 :: final) :
    parseFields (fuel + 1) (jsonStr k ++ 58 :: (vE ++ 125 :: final))
      = some ([(k, v)], final) := by
  rw [show jsonStr k ++ 58 :: (vE ++ 125 :: final)
      = 34 :: ((k.map jsonEscapeByte).flatten ++ 34 :: (58 :: (vE ++ 125 :: final))) from by
    simp [jsonStr]]
  rw [parseFields]
  rw [skipWs_nonws 34 (by decide)]
  simp only [parseJStrBody_enc k hk, Option.bind_eq_bind, Option.some_bind,
    skipWs_nonws 58 (by decide)]
  rw [hnws, hv]
  simp only [Option.some_bind, skipWs_nonws 125 (by decide)]
  simp


theorem jsonStrArr_cons_shape (s : Str) (ss : List Str) :
    ∃ t, jsonStrArr (s :: ss) = 91 :: t := ⟨_, rfl⟩

theorem parseTopObject_enc (srcs cnts : List Str)
    (hsrcs : ∀ s ∈ srcs, validUTF8 s = true)
    (hcnts : ∀ s ∈ cnts, validUTF8 s = true) :
    parseTopObject (encodeSourceMapJson srcs cnts)
      = some [(str "version", JVal.jnum 3), (str "sources", JVal.jarr srcs),
              (str "sourcesContent", JVal.jarr cnts)] := by
  set REST3 : Str := jsonStr (str "sourcesContent") ++ 58 :: (jsonStrArr cnts ++ 125 :: [])
    with hREST3
  set REST2 : Str := jsonStr (str "sources") ++ 58 :: (jsonStrArr srcs ++ 44 :: REST3)
    with hREST2
  set BODY : Str := jsonStr (str "version") ++ 58 :: (([51] : Str) ++ 44 :: REST2)
    with hBODY
  have henc : encodeSourceMapJson srcs cnts = 123 :: BODY := by
    rw [hBODY, hREST2, hREST3]
    simp [encodeSourceMapJson, jsonStrArr]
  have harr_nws : ∀ (es : List Str) (t : Str),
      skipWs (jsonStrArr es ++ t) = jsonStrArr es ++ t := by
    intro es t
    cases es with
    | nil => exact skipWs_nonws 91 (by decide) _
    | cons e es' =>
      rw [show jsonStrArr (e :: es') ++ t
          = 91 :: (joinSep 44 ((e :: es').map jsonStr) ++ 93 :: [] ++ t) from by
        simp [jsonStrArr]]
      exact skipWs_nonws 91 (by decide) _
  have h3 : parseFields ((BODY.length - 2) + 1) REST3
      = some ([(str "sourcesContent", JVal.jarr cnts)], []) :=
    parseFields_last (BODY.length - 2) (str "sourcesContent") (jsonStrArr cnts)
      (JVal.jarr cnts) [] (by decide)
      (parseScalar_arr cnts (125 :: []) hcnts)
      (harr_nws cnts (125 :: []))
  have h2 : parseFields ((BODY.length - 2) + 1 + 1) REST2
      = some ([(str "sources", JVal.jarr srcs),
               (str "sourcesContent", JVal.jarr cnts)], []) :=
    parseFields_cons ((BODY.length - 2) + 1) (str "sources") (jsonStrArr srcs)
      (JVal.jarr srcs) REST3 _ [] (by decide)
      (parseScalar_arr srcs (44 :: REST3) hsrcs)
      (harr_nws srcs (44 :: REST3))
      h3
  have h1 : parseFields ((BODY.length - 2) + 1 + 1 + 1) BODY
      = some ([(str "version", JVal.jnum 3), (str "sources", JVal.jarr srcs),
               (str "sourcesContent", JVal.jarr cnts)], []) :=
    parseFields_cons ((BODY.length - 2) + 1 + 1) (str "version") ([51] : Str)
      (JVal.jnum 3) REST2 _ [] (by decide)
      (parseScalar_num3 REST2)
      (skipWs_nonws 51 (by decide) _)
      h2
  have hlen : 2 ≤ BODY.length := by
    rw [hBODY]
    have := jsonStr_two_le (str "version")
    simp
    omega
  have hfuel : BODY.length.succ = (BODY.length - 2) + 1 + 1 + 1 := by omega
  have hBshape : ∃ t, BODY = 34 :: t :=
    ⟨((str "version").map jsonEscapeByte).flatten ++ 34 :: (58 :: (([51] : Str) ++ 44 :: REST2)), by
      rw [hBODY]; simp [jsonStr]⟩
  obtain ⟨tb, htb⟩ := hBshape
  rw [henc]
  rw [parseTopObject.eq_def]
  rw [skipWs_nonws 123 (by decide)]
  simp only []
  rw [show skipWs BODY = BODY from by rw [htb]; exact skipWs_nonws 34 (by decide) _]
  rw [htb]
  simp only []
  rw [← htb]
  rw [hfuel, h1]
  simp [skipWs]

theorem Parse_enc (srcs cnts : List Str)
    (hsrcs : ∀ s ∈ srcs, validUTF8 s = true)
    (hcnts : ∀ s ∈ cnts, validUTF8 s = true) :
    Parse (encodeSourceMapJson srcs cnts)
      = some { version := 3, sources := srcs, sourcesContent := cnts } := by
  unfold Parse
  rw [parseTopObject_enc srcs cnts hsrcs hcnts]
  rfl


/-! ## Inline extraction round trip: string and alphabet facts -/

theorem isPrefixOf_self_append : ∀ (n t : Str), n.isPrefixOf (n ++ t) = true
  | [], _ => by simp [List.isPrefixOf]
  | c :: n', t => by
    show (c == c && n'.isPrefixOf (n' ++ t)) = true
    rw [isPrefixOf_self_append n' t]
    simp

theorem containsSub_of_parts (a n b : Str) : containsSub (a ++ n ++ b) n = true := by
  induction a with
  | nil =>
    rw [containsSub.eq_def]
    show (List.isPrefixOf n (n ++ b) ||
        match (n ++ b : Str) with
        | [] => false
        | _ :: t => containsSub t n) = true
    rw [isPrefixOf_self_append n b]
    simp
  | cons c a' ih =>
    rw [show (c :: a') ++ n ++ b = c :: (a' ++ n ++ b) from by simp]
    rw [containsSub.eq_def]
    show (List.isPrefixOf n (c :: (a' ++ n ++ b)) ||
        match (c :: (a' ++ n ++ b) : Str) with
        | [] => false
        | _ :: t => containsSub t n) = true
    simp only [Bool.or_eq_true]
    right
    exact ih

theorem mem_b64encode_class :
    ∀ (bs : Str) (b : Nat), b ∈ b64encode bs → b64Class b = true
  | [], b => by simp [b64encode]
  | [b1], b => by
    intro h
    simp only [b64encode, List.mem_cons, List.mem_singleton] at h
    rcases h with rfl | rfl | rfl | h
    · exact b64Class_chr _
    · exact b64Class_chr _
    · decide
    · simp at h
      rw [h]
      decide
  | [b1, b2], b => by
    intro h
    simp only [b64encode, List.mem_cons, List.mem_singleton] at h
    rcases h with rfl | rfl | rfl | h
    · exact b64Class_chr _
    · exact b64Class_chr _
    · exact b64Class_chr _
    · simp at h
      rw [h]
      decide
  | b1 :: b2 :: b3 :: rest, b => by
    intro h
    show b64Class b = true
    rw [show b64encode (b1 :: b2 :: b3 :: rest)
        = b64chr (b1 / 4) :: b64chr ((b1 % 4) * 16 + b2 / 16) ::
            b64chr ((b2 % 16) * 4 + b3 / 64) :: b64chr (b3 % 64) :: b64encode rest
      from rfl] at h
    simp only [List.mem_cons] at h
    rcases h with rfl | rfl | rfl | rfl | h
    · exact b64Class_chr _
    · exact b64Class_chr _
    · exact b64Class_chr _
    · exact b64Class_chr _
    · exact mem_b64encode_class rest b h

theorem b64Class_ge (b : Nat) (h : b64Class b = true) : 43 ≤ b := by
  simp [b64Class] at h
  omega

theorem b64encode_filter_crlf (bs : Str) :
    (b64encode bs).filter (fun b => ¬ (b = 13 ∨ b = 10)) = b64encode bs := by
  apply List.filter_eq_self.mpr
  intro b hb
  have := b64Class_ge b (mem_b64encode_class bs b hb)
  simp
  omega

theorem b64decode_encode (bs : Str) (h : ∀ b ∈ bs, b < 256) :
    b64decode (b64encode bs) = some bs := by
  unfold b64decode
  rw [b64encode_filter_crlf]
  exact b64decodeGroups_encode bs h

theorem b64encode_ne_nil : ∀ bs : Str, bs ≠ [] → b64encode bs ≠ []
  | [], h => absurd rfl h
  | [b1], _ => by simp [b64encode]
  | [b1, b2], _ => by simp [b64encode]
  | b1 :: b2 :: b3 :: rest, _ => by
    rw [show b64encode (b1 :: b2 :: b3 :: rest)
        = b64chr (b1 / 4) :: b64chr ((b1 % 4) * 16 + b2 / 16) ::
            b64chr ((b2 % 16) * 4 + b3 / 64) :: b64chr (b3 % 64) :: b64encode rest
      from rfl]
    simp

theorem takeWhile_of_all (p : Nat → Bool) :
    ∀ l : Str, (∀ b ∈ l, p b = true) → l.takeWhile p = l
  | [] => fun _ => rfl
  | c :: rest => by
    intro h
    rw [List.takeWhile_cons, if_pos (h c (by simp))]
    rw [takeWhile_of_all p rest (fun b hb => h b (List.mem_cons_of_mem c hb))]


theorem expectStr_self_append (lit rest : Str) :
    expectStr lit (lit ++ rest) = some rest := by
  unfold expectStr
  rw [if_pos (isPrefixOf_self_append lit rest)]
  rw [List.drop_left]

theorem starB64_marker (payload : Str) :
    starB64 (str ";base64," ++ payload) = some payload := by
  show starB64 (59 :: 98 :: 97 :: 115 :: 101 :: 54 :: 52 :: 44 :: payload) = some payload
  simp [starB64, show (str ";base64,") = ([59, 98, 97, 115, 101, 54, 52, 44] : Str) from rfl,
    List.isPrefixOf, Option.orElse]


theorem dropWhile_reSpace_str_d (X : Str) :
    List.dropWhile reSpace (str "data:application/json" ++ X)
      = str "data:application/json" ++ X := by
  rw [show str "data:application/json" ++ X
      = 100 :: (str "ata:application/json" ++ X) from by simp [str]]
  rw [List.dropWhile_cons_of_neg (by decide)]

theorem matchInlineAt_marker (payload : Str) (hne : payload ≠ [])
    (hcl : ∀ b ∈ payload, b64Class b = true) :
    matchInlineAt (str "sourceMappingURL=data:application/json;base64," ++ payload)
      = some payload := by
  have hsplit : str "sourceMappingURL=data:application/json;base64," ++ payload
      = str "sourceMappingURL" ++ (61 :: (str "data:application/json"
          ++ (str ";base64," ++ payload))) := by
    simp [str]
  rw [hsplit]
  unfold matchInlineAt
  rw [expectStr_self_append]
  simp only [Option.bind_eq_bind, Option.some_bind]
  rw [show List.dropWhile reSpace (61 :: (str "data:application/json"
      ++ (str ";base64," ++ payload)))
      = 61 :: (str "data:application/json" ++ (str ";base64," ++ payload)) from by
    rw [List.dropWhile_cons_of_neg (by decide)]]
  rw [show expectByte 61 (61 :: (str "data:application/json"
      ++ (str ";base64," ++ payload)))
      = some (str "data:application/json" ++ (str ";base64," ++ payload)) from by
    rw [expectByte, if_pos rfl]]
  simp only [Option.some_bind]
  rw [dropWhile_reSpace_str_d (str ";base64," ++ payload)]
  rw [expectStr_self_append]
  simp only [Option.some_bind]
  rw [starB64_marker]
  simp only [Option.some_bind]
  rw [takeWhile_of_all b64Class payload hcl]
  rw [if_neg hne]

theorem matchInlineAt_head (c : Nat) (t : Str) (h : c ≠ 115) :
    matchInlineAt (c :: t) = none := by
  unfold matchInlineAt
  rw [show expectStr (str "sourceMappingURL") (c :: t) = none from by
    unfold expectStr
    rw [if_neg (by
      show ¬ (List.isPrefixOf (115 :: _) (c :: t) = true)
      show ¬ ((115 == c && _) = true)
      simp
      intro he
      exact absurd he.symm h)]]
  rfl


theorem trimRight_noop (Y : Str) (b : Nat) (hlast : Y.getLast? = some b)
    (hsp : isSpace b = false) : (Y.reverse.dropWhile isSpace).reverse = Y := by
  have hrev : Y.reverse.head? = some b := by
    rw [List.head?_reverse]
    exact hlast
  cases hY : Y.reverse with
  | nil => rw [hY] at hrev; simp at hrev
  | cons c t =>
    rw [hY] at hrev
    simp only [List.head?_cons, Option.some.injEq] at hrev
    subst hrev
    rw [List.dropWhile_cons_of_neg (by simp [hsp])]
    rw [← hY, List.reverse_reverse]

theorem getLast?_trimLeft (X : Str) (h : trimLeft X ≠ []) :
    (trimLeft X).getLast? = X.getLast? := by
  have h' : X.dropWhile isSpace ≠ [] := h
  conv_rhs => rw [← List.takeWhile_append_dropWhile isSpace X]
  rw [List.getLast?_append_of_ne_nil _ h']
  rfl

theorem splitOnAux_sep_append (sep : Nat) :
    ∀ (x : Str) (y : Str) (cur : Str),
      splitOnAux sep (x ++ sep :: y) cur = splitOnAux sep x cur ++ splitOn sep y
  | [], y, cur => by
    show splitOnAux sep (sep :: y) cur = _
    simp only [splitOnAux, if_pos]
    rfl
  | c :: x', y, cur => by
    show splitOnAux sep (c :: (x' ++ sep :: y)) cur = _
    by_cases hc : c = sep
    · simp only [splitOnAux, if_pos hc]
      rw [splitOnAux_sep_append sep x' y []]
      rfl
    · simp only [splitOnAux, if_neg hc]
      rw [splitOnAux_sep_append sep x' y (c :: cur)]

theorem splitOn_sep_append (sep : Nat) (x y : Str) :
    splitOn sep (x ++ sep :: y) = splitOn sep x ++ splitOn sep y :=
  splitOnAux_sep_append sep x y []

theorem lastLines_reverse_cons (lines : List Str) (Y : List Str) (L : Str)
    (h : lines = Y ++ [L]) :
    ∃ rest, (lastLines 10 lines).reverse = L :: rest := by
  subst h
  unfold lastLines
  have hle : (Y ++ [L]).length - 10 ≤ Y.length := by
    simp only [List.length_append, List.length_singleton]
    omega
  rw [List.drop_append_of_le_length hle]
  rw [List.reverse_append]
  exact ⟨(Y.drop ((Y ++ [L]).length - 10)).reverse, rfl⟩


theorem scanFirst_cons (f : Str → Option Str) (a : Nat) (rest : Str) :
    scanFirst f (a :: rest) = (f (a :: rest)).orElse (fun _ => scanFirst f rest) := by
  rw [scanFirst]

theorem findInlineB64_line (payload : Str) (hne : payload ≠ [])
    (hcl : ∀ b ∈ payload, b64Class b = true) :
    findInlineB64 (str "//# sourceMappingURL=data:application/json;base64," ++ payload)
      = some payload := by
  have hsplit : str "//# sourceMappingURL=data:application/json;base64," ++ payload
      = 47 :: 47 :: 35 :: 32 ::
          (str "sourceMappingURL=data:application/json;base64," ++ payload) := by
    simp [str]
  rw [hsplit]
  unfold findInlineB64
  rw [scanFirst_cons, matchInlineAt_head 47 _ (by decide)]
  rw [scanFirst_cons, matchInlineAt_head 47 _ (by decide)]
  rw [scanFirst_cons, matchInlineAt_head 35 _ (by decide)]
  rw [scanFirst_cons, matchInlineAt_head 32 _ (by decide)]
  have hs : str "sourceMappingURL=data:application/json;base64," ++ payload
      = 115 :: (str "ourceMappingURL=data:application/json;base64," ++ payload) := by
    simp [str]
  rw [hs, scanFirst_cons, ← hs, matchInlineAt_marker payload hne hcl]
  simp [Option.orElse]

theorem mem_jsonEscapeByte_lt (b x : Nat) (hb : b < 256) (hx : x ∈ jsonEscapeByte b) :
    x < 256 := by
  have hd : ∀ n : Nat, n < 16 → hexDigit n < 256 := by decide
  unfold jsonEscapeByte at hx
  split_ifs at hx with h1 h2 h3 h4 h5 h6
  · simp at hx; omega
  · simp at hx; omega
  · simp at hx; omega
  · simp at hx; omega
  · simp at hx; omega
  · rcases List.mem_cons.1 hx with rfl | hx
    · omega
    rcases List.mem_cons.1 hx with rfl | hx
    · omega
    rcases List.mem_cons.1 hx with rfl | hx
    · omega
    rcases List.mem_cons.1 hx with rfl | hx
    · omega
    rcases List.mem_cons.1 hx with rfl | hx
    · exact hd _ (by omega)
    rcases List.mem_cons.1 hx with rfl | hx
    · exact hd _ (by omega)
    simp at hx
  · simp at hx; omega

theorem mem_jsonStr_lt (s : Str) (hs : ∀ b ∈ s, b < 256) :
    ∀ x ∈ jsonStr s, x < 256 := by
  intro x hx
  unfold jsonStr at hx
  rcases List.mem_cons.1 hx with rfl | hx
  · omega
  rcases List.mem_append.1 hx with hx | hx
  · rcases List.mem_flatten.1 hx with ⟨l, hl, hxl⟩
    rcases List.mem_map.1 hl with ⟨b, hb, rfl⟩
    exact mem_jsonEscapeByte_lt b x (hs b hb) hxl
  · simp at hx
    omega

theorem mem_joinSep (sep : Nat) :
    ∀ (xs : List Str) (x : Nat), x ∈ joinSep sep xs → x = sep ∨ ∃ l ∈ xs, x ∈ l
  | [] => by simp [joinSep]
  | [a] => by
    intro x hx
    right
    exact ⟨a, by simp, hx⟩
  | a :: b :: r => by
    intro x hx
    rw [show joinSep sep (a :: b :: r) = a ++ sep :: joinSep sep (b :: r) from rfl] at hx
    rcases List.mem_append.1 hx with hx | hx
    · right; exact ⟨a, by simp, hx⟩
    rcases List.mem_cons.1 hx with rfl | hx
    · left; rfl
    rcases mem_joinSep sep (b :: r) x hx with h | ⟨l, hl, hxl⟩
    · left; exact h
    · right; exact ⟨l, List.mem_cons_of_mem a hl, hxl⟩

theorem mem_jsonStrArr_lt (ss : List Str) (hs : ∀ s ∈ ss, ∀ b ∈ s, b < 256) :
    ∀ x ∈ jsonStrArr ss, x < 256 := by
  intro x hx
  unfold jsonStrArr at hx
  rcases List.mem_cons.1 hx with rfl | hx
  · omega
  rcases List.mem_append.1 hx with hx | hx
  · rcases mem_joinSep 44 (ss.map jsonStr) x hx with rfl | ⟨l, hl, hxl⟩
    · omega
    · rcases List.mem_map.1 hl with ⟨s, hsm, rfl⟩
      exact mem_jsonStr_lt s (hs s hsm) x hxl
  · simp at hx
    omega

theorem mem_encodeSourceMapJson_lt (srcs cnts : List Str)
    (h : ∀ s ∈ srcs ++ cnts, ∀ b ∈ s, b < 256) :
    ∀ x ∈ encodeSourceMapJson srcs cnts, x < 256 := by
  intro x hx
  have hv : ∀ x ∈ jsonStr (str "version"), x < 256 := by decide
  have hs : ∀ x ∈ jsonStr (str "sources"), x < 256 := by decide
  have hsc : ∀ x ∈ jsonStr (str "sourcesContent"), x < 256 := by decide
  have hshape : encodeSourceMapJson srcs cnts
      = 123 :: (jsonStr (str "version") ++ 58 :: (([51] : Str)
          ++ 44 :: (jsonStr (str "sources") ++ 58 :: (jsonStrArr srcs
          ++ 44 :: (jsonStr (str "sourcesContent") ++ 58 :: (jsonStrArr cnts
          ++ 125 :: [])))))) := by
    simp [encodeSourceMapJson]
  rw [hshape] at hx
  rcases List.mem_cons.1 hx with rfl | hx
  · omega
  rcases List.mem_append.1 hx with hx | hx
  · exact hv x hx
  rcases List.mem_cons.1 hx with rfl | hx
  · omega
  rcases List.mem_append.1 hx with hx | hx
  · simp at hx; omega
  rcases List.mem_cons.1 hx with rfl | hx
  · omega
  rcases List.mem_append.1 hx with hx | hx
  · exact hs x hx
  rcases List.mem_cons.1 hx with rfl | hx
  · omega
  rcases List.mem_append.1 hx with hx | hx
  · exact mem_jsonStrArr_lt srcs (fun s hsm => h s (List.mem_append_left _ hsm)) x hx
  rcases List.mem_cons.1 hx with rfl | hx
  · omega
  rcases List.mem_append.1 hx with hx | hx
  · exact hsc x hx
  rcases List.mem_cons.1 hx with rfl | hx
  · omega
  rcases List.mem_append.1 hx with hx | hx
  · exact mem_jsonStrArr_lt cnts (fun s hsm => h s (List.mem_append_right _ hsm)) x hx
  rcases List.mem_cons.1 hx with rfl | hx
  · omega
  simp at hx


/-- C8: for every script whose trailing line carries a base64-encoded JSON
sourcemap comment (any prefix `pre`, any sources and contents that are
valid UTF-8 — the domain on which `encoding/json` string unmarshalling is
byte-exact, its replacement-character coercion of invalid UTF-8 being the
identity), `HasInlineSourceMap` reports `true` and
`ExtractInlineSourceMap` recovers a `SourceMap` whose `sources` and
`sourcesContent` equal the encoded ones. -/
theorem inline_sourcemap_roundtrip (pre : Str) (sources sourcesContent : List Str)
    (hvalid : ∀ s ∈ sources ++ sourcesContent, validUTF8 s = true) :
    HasInlineSourceMap (pre ++ str "\n//# sourceMappingURL=data:application/json;base64,"
        ++ b64encode (encodeSourceMapJson sources sourcesContent)) = true ∧
    ExtractInlineSourceMap (pre ++ str "\n//# sourceMappingURL=data:application/json;base64,"
        ++ b64encode (encodeSourceMapJson sources sourcesContent))
      = .ok (some { version := 3, sources := sources,
                    sourcesContent := sourcesContent }) := by
  have hbytes : ∀ s ∈ sources ++ sourcesContent, ∀ b ∈ s, b < 256 :=
    fun s hs => validUTF8_lt s (hvalid s hs)
  set payload := b64encode (encodeSourceMapJson sources sourcesContent) with hpay
  have hpcl : ∀ b ∈ payload, b64Class b = true :=
    fun b hb => mem_b64encode_class _ b hb
  have hencne : encodeSourceMapJson sources sourcesContent ≠ [] := by
    simp [encodeSourceMapJson]
  have hpne : payload ≠ [] := b64encode_ne_nil _ hencne
  set L := str "//# sourceMappingURL=data:application/json;base64," ++ payload with hL
  have hscript : pre ++ str "\n//# sourceMappingURL=data:application/json;base64," ++ payload
      = pre ++ 10 :: L := by
    rw [hL]
    simp [str]
  obtain ⟨Y0, c0, hpay0⟩ : ∃ Y0 c0, payload = Y0 ++ [c0] := by
    rcases List.eq_nil_or_concat payload with h | ⟨Y0, c0, h⟩
    · exact absurd h hpne
    · exact ⟨Y0, c0, by rw [h, List.concat_eq_append]⟩
  have hc0cl : b64Class c0 = true := hpcl c0 (by rw [hpay0]; simp)
  have hc0sp : isSpace c0 = false := by
    have := b64Class_ge c0 hc0cl
    simp [isSpace]
    omega
  constructor
  · rw [hscript]
    unfold HasInlineSourceMap
    rw [show pre ++ 10 :: L
        = (pre ++ (10 :: str "//# ")) ++ inlineMarker ++ (str ";base64," ++ payload) from by
      rw [hL]
      simp [str, inlineMarker]]
    exact containsSub_of_parts _ _ _
  · rw [hscript]
    show scanInlineRev (lastLines 10 (splitOn 10 (trimSpace (pre ++ 10 :: L)))).reverse = _
    have hscriptlast : pre ++ 10 :: L
        = (pre ++ 10 :: (str "//# sourceMappingURL=data:application/json;base64," ++ Y0))
            ++ [c0] := by
      rw [hL, hpay0]
      simp
    have hTne : trimLeft (pre ++ 10 :: L) ≠ [] := by
      intro hnil
      have hall := List.dropWhile_eq_nil_iff.1 hnil c0 (by rw [hscriptlast]; simp)
      rw [hc0sp] at hall
      simp at hall
    have htrim : trimSpace (pre ++ 10 :: L) = trimLeft (pre ++ 10 :: L) := by
      unfold trimSpace
      apply trimRight_noop _ c0 _ hc0sp
      rw [getLast?_trimLeft _ hTne, hscriptlast, List.getLast?_concat]
    have h10L : (10 : Nat) ∉ L := by
      rw [hL]
      intro hmem
      rcases List.mem_append.1 hmem with h | h
      · revert h
        decide
      · have := hpcl 10 h
        simp [b64Class] at this
    have hlines : ∃ Y : List Str,
        splitOn 10 (trimLeft (pre ++ 10 :: L)) = Y ++ [L] := by
      unfold trimLeft
      rw [List.dropWhile_append]
      by_cases hp0 : (pre.dropWhile isSpace).isEmpty
      · rw [if_pos hp0]
        rw [List.dropWhile_cons_of_pos (by decide)]
        have hLcons : L = 47 :: (str "/# sourceMappingURL=data:application/json;base64,"
            ++ payload) := by
          rw [hL]
          simp [str]
        rw [hLcons, List.dropWhile_cons_of_neg (by decide), ← hLcons]
        exact ⟨[], by simp [splitOn_eq_single 10 L h10L]⟩
      · rw [if_neg hp0]
        rw [splitOn_sep_append 10 (pre.dropWhile isSpace) L]
        rw [splitOn_eq_single 10 L h10L]
        exact ⟨splitOn 10 (pre.dropWhile isSpace), rfl⟩
    obtain ⟨Y, hY⟩ := hlines
    rw [htrim, hY]
    obtain ⟨rest, hwin⟩ := lastLines_reverse_cons (Y ++ [L]) Y L rfl
    rw [hwin]
    have hcont : containsSub L inlineMarker = true := by
      rw [show L = (str "//# ") ++ inlineMarker ++ (str ";base64," ++ payload) from by
        rw [hL]
        simp [str, inlineMarker]]
      exact containsSub_of_parts _ _ _
    have hfind : findInlineB64 L = some payload := by
      rw [hL]
      exact findInlineB64_line payload hpne hpcl
    have hdec : b64decode payload = some (encodeSourceMapJson sources sourcesContent) := by
      rw [hpay]
      exact b64decode_encode _ (mem_encodeSourceMapJson_lt sources sourcesContent hbytes)
    rw [scanInlineRev, if_pos hcont]
    simp only [hfind, hdec,
      Parse_enc sources sourcesContent
        (fun s hs => hvalid s (List.mem_append_left _ hs))
        (fun s hs => hvalid s (List.mem_append_right _ hs))]


theorem inline_sourcemap_roundtrip_witness :
    HasInlineSourceMap (str "var x;"
        ++ str "\n//# sourceMappingURL=data:application/json;base64,"
        ++ b64encode (encodeSourceMapJson [str "a.js"] [str "console.log(1)"])) = true ∧
    ExtractInlineSourceMap (str "var x;"
        ++ str "\n//# sourceMappingURL=data:application/json;base64,"
        ++ b64encode (encodeSourceMapJson [str "a.js"] [str "console.log(1)"]))
      = .ok (some { version := 3, sources := [str "a.js"],
                    sourcesContent := [str "console.log(1)"] }) :=
  inline_sourcemap_roundtrip (str "var x;") [str "a.js"] [str "console.log(1)"]
    (by decide)

end Dejank
